import Mathlib

/-! # Order cache and matching engine (`matchEngine.cpp`)

A shallow embedding of `class Order` and `class OrderCache`.

* `std::string` is `String`, compared as `std::string` is: `=` on the character
  sequence and `<` lexicographically.
* `std::map<std::string, V>` is an association list `List (String × V)` kept in
  strictly ascending key order by `StdMap.insert`, which is the order in which a
  C++ range-`for` over the map visits it.
* `unsigned int` is `Nat`, with every addition reduced modulo `2 ^ 32`; the
  subtractions of the pairing loop take away a minimum and cannot wrap.
* Every method is a function of the stored mapping; `getMatchingSizeForSecurity`,
  which is not `const`, returns the mapping it leaves behind as well.
* `runGetMatchingSizeForSecurity` is the same method run statement by statement
  on a state that holds the member `orders` next to the local variables; it is
  proved to return the same total and never to change `orders`.
* The mutex is not modelled: the development is about one call at a time.
-/

namespace MatchEngine

/-- Number of values of `unsigned int`. -/
def UINT_MOD : Nat := 4294967296

/-- Fields of `class Order`, in the order of its constructor. -/
structure Order where
  orderId : String
  securityId : String
  side : String
  qty : Nat
  user : String
  company : String
  deriving DecidableEq, Repr

namespace StdMap

/-- Lookup as done by `std::map::find`: the value stored under `k`, if any. -/
def find {V : Type} (k : String) : List (String × V) → Option V
  | [] => none
  | (k', v) :: t => if k = k' then some v else find k t

/-- Result of `m[k] = v`: the entry under `k` is replaced, or a new entry is
put at its place in ascending key order. -/
def insert {V : Type} (k : String) (v : V) : List (String × V) → List (String × V)
  | [] => [(k, v)]
  | (k', v') :: t =>
    if k < k' then (k, v) :: (k', v') :: t
    else if k = k' then (k, v) :: t
    else (k', v') :: insert k v t

/-- Result of `m.erase(k)`: the entry under `k`, if there is one, is dropped. -/
def erase {V : Type} (k : String) : List (String × V) → List (String × V)
  | [] => []
  | (k', v') :: t => if k = k' then t else (k', v') :: erase k t

/-- Value read by `m[k]`: the stored value, or a value-initialised one (`d`)
when `k` is absent. -/
def get {V : Type} (d : V) (k : String) (m : List (String × V)) : V :=
  (find k m).getD d

end StdMap

/-- The map type `std::map<std::string, unsigned int>` of per-user quantities. -/
abbrev QtyMap := List (String × Nat)

/-- State of an `OrderCache`: its member `orders`, a `std::map` from order
identifier to `Order`. -/
structure OrderCache where
  orders : List (String × Order)
  deriving DecidableEq, Repr

/-- A freshly constructed `OrderCache`. -/
def OrderCache.empty : OrderCache := ⟨[]⟩

/-- `addOrder`: `orders[order.orderId()] = order`. -/
def addOrder (c : OrderCache) (order : Order) : OrderCache :=
  ⟨StdMap.insert order.orderId order c.orders⟩

/-- `cancelOrder`: `orders.erase(orderId)`. -/
def cancelOrder (c : OrderCache) (orderId : String) : OrderCache :=
  ⟨StdMap.erase orderId c.orders⟩

/-- The loop shared by the two bulk cancellations: walk the map from `begin()`,
erase the current entry when the test holds, step to the next one otherwise. -/
def eraseLoop (test : Order → Bool) : List (String × Order) → List (String × Order)
  | [] => []
  | (k, o) :: t => if test o then eraseLoop test t else (k, o) :: eraseLoop test t

/-- `cancelOrdersForUser`: erase when `it->second.user() == user`. -/
def cancelOrdersForUser (c : OrderCache) (user : String) : OrderCache :=
  ⟨eraseLoop (fun o => decide (o.user = user)) c.orders⟩

/-- `cancelOrdersForSecIdWithMinimumQty`: erase when
`it->second.securityId() == securityId && it->second.qty() >= minQty`. -/
def cancelOrdersForSecIdWithMinimumQty (c : OrderCache) (securityId : String)
    (minQty : Nat) : OrderCache :=
  ⟨eraseLoop (fun o => decide (o.securityId = securityId) && decide (o.qty ≥ minQty)) c.orders⟩

/-- `getAllOrders`: `push_back` of `order.second` for every entry in map order. -/
def getAllOrders (c : OrderCache) : List Order :=
  c.orders.foldl (fun allOrders order => allOrders ++ [order.2]) []

/-- The two working maps of `getMatchingSizeForSecurity`. -/
structure Book where
  orderBook : List (String × QtyMap)
  userCompanyMap : List (String × String)
  deriving DecidableEq, Repr

/-- Body of the loop that builds the order book (one stored entry). -/
def buildStep (securityId : String) (b : Book) (order : String × Order) : Book :=
  if order.2.securityId = securityId then
    let ob :=
      if (StdMap.find order.2.side b.orderBook).isNone then
        StdMap.insert order.2.side [] b.orderBook
      else b.orderBook
    let users := StdMap.get [] order.2.side ob
    let q := (StdMap.get 0 order.2.user users + order.2.qty) % UINT_MOD
    { orderBook := StdMap.insert order.2.side (StdMap.insert order.2.user q users) ob
      userCompanyMap := StdMap.insert order.2.user order.2.company b.userCompanyMap }
  else b

/-- The order book and the user-to-company map after the first loop. -/
def buildBook (c : OrderCache) (securityId : String) : Book :=
  c.orders.foldl (buildStep securityId) ⟨[], []⟩

/-- One execution of the matching statements of the inner loop
(`matchedQty = std::min(...)` to `sellOrderQty -= matchedQty`): the pair of
users and the quantity. The program keeps no such record; the loops below carry
it along in the field `matched`, which nothing else reads, so that statements
about which users are matched can be made. -/
structure Match where
  buyUser : String
  sellUser : String
  qty : Nat
  deriving DecidableEq, Repr

/-- What the inner loop over the sell users leaves behind. -/
structure SellPass where
  sellOrders : QtyMap
  sellOrdersToRemove : List String
  buyOrderQty : Nat
  totalQty : Nat
  matched : List Match
  deriving DecidableEq, Repr

/-- The inner loop: the sell entries still to visit, the buy user's quantity
and the running total. `userCompanyMap[u]` is read with `StdMap.get ""`; both
users were recorded by the first loop, so the read inserts nothing. -/
def sellLoop (userCompanyMap : List (String × String)) (buyOrderUser : String) :
    QtyMap → Nat → Nat → SellPass
  | [], buyOrderQty, totalQty => ⟨[], [], buyOrderQty, totalQty, []⟩
  | (sellOrderUser, sellOrderQty) :: rest, buyOrderQty, totalQty =>
    if StdMap.get "" buyOrderUser userCompanyMap ≠ StdMap.get "" sellOrderUser userCompanyMap then
      let matchedQty := min buyOrderQty sellOrderQty
      let r := sellLoop userCompanyMap buyOrderUser rest (buyOrderQty - matchedQty)
        ((totalQty + matchedQty) % UINT_MOD)
      { sellOrders := (sellOrderUser, sellOrderQty - matchedQty) :: r.sellOrders
        sellOrdersToRemove :=
          if sellOrderQty - matchedQty = 0 then sellOrderUser :: r.sellOrdersToRemove
          else r.sellOrdersToRemove
        buyOrderQty := r.buyOrderQty
        totalQty := r.totalQty
        matched := ⟨buyOrderUser, sellOrderUser, matchedQty⟩ :: r.matched }
    else
      let r := sellLoop userCompanyMap buyOrderUser rest buyOrderQty totalQty
      { r with sellOrders := (sellOrderUser, sellOrderQty) :: r.sellOrders }

/-- The loops `for (orderToRemove : ...) m.erase(orderToRemove)`. -/
def eraseAll (toRemove : List String) (m : QtyMap) : QtyMap :=
  toRemove.foldl (fun m k => StdMap.erase k m) m

/-- What the outer loop over the buy users leaves behind. -/
structure BuyPass where
  buyOrders : QtyMap
  buyOrdersToRemove : List String
  sellOrders : QtyMap
  totalQty : Nat
  matched : List Match
  deriving DecidableEq, Repr

/-- The outer loop: the buy entries still to visit, the current sell map and
the running total. -/
def buyLoop (userCompanyMap : List (String × String)) : QtyMap → QtyMap → Nat → BuyPass
  | [], sellOrders, totalQty => ⟨[], [], sellOrders, totalQty, []⟩
  | (buyOrderUser, buyOrderQty) :: rest, sellOrders, totalQty =>
    let s := sellLoop userCompanyMap buyOrderUser sellOrders buyOrderQty totalQty
    let r := buyLoop userCompanyMap rest (eraseAll s.sellOrdersToRemove s.sellOrders) s.totalQty
    { buyOrders := (buyOrderUser, s.buyOrderQty) :: r.buyOrders
      buyOrdersToRemove :=
        if s.buyOrderQty = 0 then buyOrderUser :: r.buyOrdersToRemove else r.buyOrdersToRemove
      sellOrders := r.sellOrders
      totalQty := r.totalQty
      matched := s.matched ++ r.matched }

/-- The matching part of `getMatchingSizeForSecurity`, with the final erasure
of the exhausted buy users. -/
def matchOrders (b : Book) : BuyPass :=
  if (StdMap.find "Buy" b.orderBook).isSome then
    let r := buyLoop b.userCompanyMap (StdMap.get [] "Buy" b.orderBook)
      (StdMap.get [] "Sell" b.orderBook) 0
    { r with buyOrders := eraseAll r.buyOrdersToRemove r.buyOrders }
  else ⟨[], [], StdMap.get [] "Sell" b.orderBook, 0, []⟩

/-- `getMatchingSizeForSecurity`: the returned `totalQty` and the mapping the
call leaves in the cache (the method is not `const`). -/
def getMatchingSizeForSecurity (c : OrderCache) (securityId : String) : Nat × OrderCache :=
  ((matchOrders (buildBook c securityId)).totalQty, c)

namespace StdMap

/-- Keys in strictly ascending order: the representation invariant of `std::map`. -/
def Sorted {V : Type} (m : List (String × V)) : Prop :=
  m.Pairwise (fun a b => a.1 < b.1)

end StdMap

/-- Sum of the quantities of the stored orders for one security. -/
def totalQtyForSecurity (c : OrderCache) (securityId : String) : Nat :=
  ((c.orders.filter (fun e => decide (e.2.securityId = securityId))).map (fun e => e.2.qty)).sum

/-- The entries of a quantity map with a quantity left. -/
def nonzero (m : QtyMap) : QtyMap := m.filter (fun e => decide (e.2 ≠ 0))

/-- Sum of the quantities in a quantity map. -/
def qtySum (m : QtyMap) : Nat := (m.map Prod.snd).sum

/-! ## The matching-size algorithm as the specification words it (§4.3)

Quantities are non-negative integers, so nothing is reduced modulo `2 ^ 32`. -/

namespace Spec

/-- Step 1: quantities of the orders of one side for the security, summed per
user; the map is kept by ascending user identifier. -/
def qtyByUser (side securityId : String) (orders : List Order) : QtyMap :=
  orders.foldl (fun m o =>
    if o.securityId = securityId ∧ o.side = side then
      StdMap.insert o.user (StdMap.get 0 o.user m + o.qty) m
    else m) []

/-- Step 1: the user-to-company lookup; the last order seen for a user wins. -/
def companyByUser (securityId : String) (orders : List Order) : List (String × String) :=
  orders.foldl (fun m o =>
    if o.securityId = securityId then StdMap.insert o.user o.company m else m) []

/-- Steps 3 and 4 for one buy user: the working sell set, the buy user's
remaining quantity and the running total. Scanning stops when the buy user has
nothing left; a sell user with nothing left is passed over; a same-company pair
is skipped; a sell user that reaches zero leaves the working set. -/
def sellPass (company : String → String) (buyUser : String) :
    QtyMap → Nat → Nat → QtyMap × Nat × Nat
  | [], buyQty, total => ([], buyQty, total)
  | (sellUser, sellQty) :: rest, buyQty, total =>
    if buyQty = 0 then ((sellUser, sellQty) :: rest, buyQty, total)
    else if sellQty = 0 then
      let r := sellPass company buyUser rest buyQty total
      ((sellUser, sellQty) :: r.1, r.2)
    else if company buyUser = company sellUser then
      let r := sellPass company buyUser rest buyQty total
      ((sellUser, sellQty) :: r.1, r.2)
    else
      let matched := min buyQty sellQty
      let r := sellPass company buyUser rest (buyQty - matched) (total + matched)
      (if sellQty - matched = 0 then r.1 else (sellUser, sellQty - matched) :: r.1, r.2)

/-- Step 3: the buy users in ascending order, each with a quantity left
scanning the working sell set. -/
def buyPass (company : String → String) : QtyMap → QtyMap → Nat → Nat
  | [], _, total => total
  | (buyUser, buyQty) :: rest, sells, total =>
    if buyQty = 0 then buyPass company rest sells total
    else
      let r := sellPass company buyUser sells buyQty total
      buyPass company rest r.1 r.2.2

/-- Steps 1 to 5 on the stored orders, scanned by ascending order identifier. -/
def matchingSize (c : OrderCache) (securityId : String) : Nat :=
  let orders := c.orders.map Prod.snd
  let buys := qtyByUser "Buy" securityId orders
  let sells := qtyByUser "Sell" securityId orders
  let companies := companyByUser securityId orders
  if buys.isEmpty || sells.isEmpty then 0
  else buyPass (fun u => StdMap.get "" u companies) buys sells 0

end Spec

/-- Cache states that calls of the five other operations produce from a fresh
cache. -/
inductive Reachable : OrderCache → Prop
  | empty : Reachable OrderCache.empty
  | addOrder (c : OrderCache) (order : Order) : Reachable c → Reachable (addOrder c order)
  | cancelOrder (c : OrderCache) (orderId : String) :
      Reachable c → Reachable (cancelOrder c orderId)
  | cancelOrdersForUser (c : OrderCache) (user : String) :
      Reachable c → Reachable (cancelOrdersForUser c user)
  | cancelOrdersForSecIdWithMinimumQty (c : OrderCache) (securityId : String) (minQty : Nat) :
      Reachable c → Reachable (cancelOrdersForSecIdWithMinimumQty c securityId minQty)
  | getMatchingSizeForSecurity (c : OrderCache) (securityId : String) :
      Reachable c → Reachable (getMatchingSizeForSecurity c securityId).2

/-- The stored mapping is a well-formed `std::map` whose keys are the order
identifiers of the values. -/
def OrderCache.Valid (c : OrderCache) : Prop :=
  StdMap.Sorted c.orders ∧ ∀ e ∈ c.orders, e.1 = e.2.orderId

/-- Same-company exclusion between orders: whenever the pairing loop matches a
non-zero quantity for a pair of users, no `Buy` order of the buy user and `Sell`
order of the sell user for the security carry the same company. -/
def SameCompanyExclusion (c : OrderCache) (s : String) : Prop :=
  ∀ m ∈ (matchOrders (buildBook c s)).matched, m.qty ≠ 0 →
    ∀ ob ∈ getAllOrders c, ∀ os ∈ getAllOrders c,
      ob.securityId = s → ob.side = "Buy" → ob.user = m.buyUser →
      os.securityId = s → os.side = "Sell" → os.user = m.sellUser →
      ob.company ≠ os.company

/-- All the orders a user has stored for the security carry one company. -/
def OneCompanyPerUser (c : OrderCache) (s : String) : Prop :=
  ∀ o₁ ∈ getAllOrders c, ∀ o₂ ∈ getAllOrders c,
    o₁.securityId = s → o₂.securityId = s → o₁.user = o₂.user → o₁.company = o₂.company

/-! ## Concrete caches -/

namespace Examples

/-- The four orders of the `SEC1` scenario, with order identifiers to choose. -/
def scenarioOrders (i₁ i₂ i₃ i₄ : String) : List Order :=
  [⟨i₁, "SEC1", "Buy", 500, "UserA", "CompanyX"⟩, ⟨i₂, "SEC1", "Buy", 300, "UserB", "CompanyY"⟩,
   ⟨i₃, "SEC1", "Sell", 400, "UserC", "CompanyX"⟩, ⟨i₄, "SEC1", "Sell", 200, "UserD", "CompanyZ"⟩]

/-- The `SEC1` scenario, added in the order it is listed. -/
def scenario : OrderCache :=
  (scenarioOrders "OrdId1" "OrdId2" "OrdId3" "OrdId4").foldl addOrder OrderCache.empty

/-- One user whose two `Buy` orders of `2 ^ 31` add up to `2 ^ 32`, and a
`Sell` order of another company. -/
def overflow : OrderCache :=
  addOrder (addOrder (addOrder OrderCache.empty
    ⟨"OrdId1", "SEC1", "Buy", 2147483648, "UserA", "CompanyX"⟩)
    ⟨"OrdId2", "SEC1", "Buy", 2147483648, "UserA", "CompanyX"⟩)
    ⟨"OrdId3", "SEC1", "Sell", 5, "UserB", "CompanyY"⟩

/-- A buy user whose two orders carry different companies, the first of them
the company of the sell user. -/
def mixedCompany : OrderCache :=
  addOrder (addOrder (addOrder OrderCache.empty
    ⟨"OrdId1", "SEC1", "Buy", 10, "UserA", "CompanyX"⟩)
    ⟨"OrdId2", "SEC1", "Buy", 10, "UserA", "CompanyY"⟩)
    ⟨"OrdId3", "SEC1", "Sell", 5, "UserB", "CompanyX"⟩

/-- A cache whose only order is a `Buy` order. -/
def buyOnly : OrderCache :=
  addOrder OrderCache.empty ⟨"OrdId1", "SEC1", "Buy", 100, "UserA", "CompanyX"⟩

end Examples

/-- Sum of the quantities of the stored orders of one side for one security. -/
def sideQtyForSecurity (c : OrderCache) (securityId side : String) : Nat :=
  (((getAllOrders c).filter
    (fun o => decide (o.securityId = securityId ∧ o.side = side))).map Order.qty).sum

/-- Sum of the quantities one user has stored on one side for one security. -/
def userSideQty (c : OrderCache) (securityId side user : String) : Nat :=
  (((getAllOrders c).filter
    (fun o => decide (o.securityId = securityId ∧ o.side = side ∧ o.user = user))).map
      Order.qty).sum

/-- An assignment of matched quantities to pairs of a buy user and a sell user
that pairs only users of different companies and gives no user more than the
quantity the user has stored on that side. -/
def Feasible (c : OrderCache) (s : String) (a : List Match) : Prop :=
  (∀ m ∈ a, ∀ ob ∈ getAllOrders c, ∀ os ∈ getAllOrders c,
    ob.securityId = s → ob.user = m.buyUser → os.securityId = s → os.user = m.sellUser →
    ob.company ≠ os.company) ∧
  (∀ u, ((a.filter (fun m => decide (m.buyUser = u))).map Match.qty).sum ≤
    userSideQty c s "Buy" u) ∧
  (∀ u, ((a.filter (fun m => decide (m.sellUser = u))).map Match.qty).sum ≤
    userSideQty c s "Sell" u)

namespace Examples

/-- Two buy users and two sell users of 10 each, where the second buy user
shares the company of the second sell user. -/
def greedy : OrderCache :=
  addOrder (addOrder (addOrder (addOrder OrderCache.empty
    ⟨"OrdId1", "SEC1", "Buy", 10, "UserA", "CompanyX"⟩)
    ⟨"OrdId2", "SEC1", "Buy", 10, "UserB", "CompanyY"⟩)
    ⟨"OrdId3", "SEC1", "Sell", 10, "UserC", "CompanyZ"⟩)
    ⟨"OrdId4", "SEC1", "Sell", 10, "UserD", "CompanyY"⟩

/-- A buy user and a sell user of one company. -/
def sameCompanyPair : OrderCache :=
  addOrder (addOrder OrderCache.empty
    ⟨"OrdId1", "SEC1", "Buy", 10, "UserA", "CompanyX"⟩)
    ⟨"OrdId2", "SEC1", "Sell", 10, "UserB", "CompanyX"⟩

/-- An order of the buy user of `sameCompanyPair` with a side that is neither
`Buy` nor `Sell`, carrying another company. -/
def holdOrder : Order := ⟨"OrdId3", "SEC1", "Hold", 0, "UserA", "CompanyY"⟩

/-- Two buy users and a sell user of three different companies. -/
def disjointCompanies : OrderCache :=
  addOrder (addOrder (addOrder OrderCache.empty
    ⟨"OrdId1", "SEC1", "Buy", 500, "UserA", "CompanyX"⟩)
    ⟨"OrdId2", "SEC1", "Buy", 300, "UserB", "CompanyY"⟩)
    ⟨"OrdId3", "SEC1", "Sell", 600, "UserC", "CompanyZ"⟩

/-- One user with a `Buy` order and a `Sell` order that carry different
companies. -/
def selfTrade : OrderCache :=
  addOrder (addOrder OrderCache.empty
    ⟨"OrdId1", "SEC1", "Buy", 10, "UserA", "CompanyX"⟩)
    ⟨"OrdId2", "SEC1", "Sell", 10, "UserA", "CompanyY"⟩

end Examples

/-! ## `getMatchingSizeForSecurity` statement by statement

The same method once more, this time as transformations of one state that holds
the member `orders` next to the local variables, one transformation for every
pass through a loop body. An iterator is the key it stands at: no loop inserts
into or erases from the map it walks, so `it->second` reads and writes the
entry under that key. -/

/-- The member `orders` and the local variables during a call of
`getMatchingSizeForSecurity`. -/
structure CallState where
  orders : List (String × Order)
  orderBook : List (String × QtyMap)
  userCompanyMap : List (String × String)
  totalQty : Nat
  sellOrdersToRemove : List String
  buyOrdersToRemove : List String
  deriving DecidableEq, Repr

/-- The state on entry: the stored mapping, empty working maps, `totalQty = 0`. -/
def CallState.enter (c : OrderCache) : CallState := ⟨c.orders, [], [], 0, [], []⟩

/-- Result of `orderBook[side][user] = q`. -/
def setQty (side user : String) (q : Nat) (orderBook : List (String × QtyMap)) :
    List (String × QtyMap) :=
  StdMap.insert side (StdMap.insert user q (StdMap.get [] side orderBook)) orderBook

/-- One pass through the body of the loop that builds the order book. -/
def buildIter (securityId : String) (st : CallState) (order : String × Order) : CallState :=
  let b := buildStep securityId ⟨st.orderBook, st.userCompanyMap⟩ order
  { st with orderBook := b.orderBook, userCompanyMap := b.userCompanyMap }

/-- One pass through the body of the inner loop, with `sellIt` at the entry of
`sellOrderUser` and `buyIt` at the entry of `buyOrderUser`. As in `sellLoop`,
`userCompanyMap[u]` is read with `StdMap.get ""`: both users were recorded by
the first loop, so the read inserts nothing. -/
def sellIter (buyOrderUser : String) (st : CallState) (sellOrderUser : String) : CallState :=
  let buyOrderQty := StdMap.get 0 buyOrderUser (StdMap.get [] "Buy" st.orderBook)
  let sellOrderQty := StdMap.get 0 sellOrderUser (StdMap.get [] "Sell" st.orderBook)
  if StdMap.get "" buyOrderUser st.userCompanyMap ≠
      StdMap.get "" sellOrderUser st.userCompanyMap then
    let matchedQty := min buyOrderQty sellOrderQty
    { st with
      totalQty := (st.totalQty + matchedQty) % UINT_MOD
      orderBook := setQty "Sell" sellOrderUser (sellOrderQty - matchedQty)
        (setQty "Buy" buyOrderUser (buyOrderQty - matchedQty) st.orderBook)
      sellOrdersToRemove :=
        if sellOrderQty - matchedQty = 0 then st.sellOrdersToRemove ++ [sellOrderUser]
        else st.sellOrdersToRemove }
  else st

/-- The statements `auto& sellOrders = orderBook["Sell"];` and
`std::vector<std::string> sellOrdersToRemove;`: the entry `"Sell"` is created
when missing, and the removal list starts empty. -/
def openSellOrders (st : CallState) : CallState :=
  { st with
    orderBook :=
      if (StdMap.find "Sell" st.orderBook).isNone then StdMap.insert "Sell" [] st.orderBook
      else st.orderBook
    sellOrdersToRemove := [] }

/-- The inner loop, over the users of `sellOrders` in ascending order. -/
def sellOrdersLoop (buyOrderUser : String) (st : CallState) : CallState :=
  ((StdMap.get [] "Sell" st.orderBook).map Prod.fst).foldl (sellIter buyOrderUser) st

/-- One pass through `sellOrders.erase(orderToRemove)`. -/
def eraseSellIter (st : CallState) (orderToRemove : String) : CallState :=
  { st with
    orderBook := StdMap.insert "Sell"
      (StdMap.erase orderToRemove (StdMap.get [] "Sell" st.orderBook)) st.orderBook }

/-- The statement `if (buyOrderQty == 0) buyOrdersToRemove.push_back(buyOrderUser);`. -/
def markBuyOrder (buyOrderUser : String) (st : CallState) : CallState :=
  if StdMap.get 0 buyOrderUser (StdMap.get [] "Buy" st.orderBook) = 0 then
    { st with buyOrdersToRemove := st.buyOrdersToRemove ++ [buyOrderUser] }
  else st

/-- One pass through the body of the outer loop, with `buyIt` at the entry of
`buyOrderUser`: the inner loop, the removal of the marked sell users, the
marking of the buy user. -/
def buyIter (st : CallState) (buyOrderUser : String) : CallState :=
  let st₁ := sellOrdersLoop buyOrderUser (openSellOrders st)
  markBuyOrder buyOrderUser (st₁.sellOrdersToRemove.foldl eraseSellIter st₁)

/-- The outer loop, over the users of `buyOrders` in ascending order, after
`std::vector<std::string> buyOrdersToRemove;`. -/
def buyOrdersLoop (st : CallState) : CallState :=
  ((StdMap.get [] "Buy" st.orderBook).map Prod.fst).foldl buyIter
    { st with buyOrdersToRemove := [] }

/-- One pass through `buyOrders.erase(orderToRemove)`. -/
def eraseBuyIter (st : CallState) (orderToRemove : String) : CallState :=
  { st with
    orderBook := StdMap.insert "Buy"
      (StdMap.erase orderToRemove (StdMap.get [] "Buy" st.orderBook)) st.orderBook }

/-- The statement `if (orderBook.find("Buy") != orderBook.end()) { ... }`. -/
def matchIter (st : CallState) : CallState :=
  if (StdMap.find "Buy" st.orderBook).isSome then
    let st₁ := buyOrdersLoop st
    st₁.buyOrdersToRemove.foldl eraseBuyIter st₁
  else st

/-- The loop `for (const auto& order : orders)`. -/
def buildLoop (securityId : String) (st : CallState) : CallState :=
  st.orders.foldl (buildIter securityId) st

/-- The state in which `getMatchingSizeForSecurity` returns `totalQty`. -/
def runGetMatchingSizeForSecurity (c : OrderCache) (securityId : String) : CallState :=
  matchIter (buildLoop securityId (CallState.enter c))



/-! ## Facts about the sorted association lists -/

namespace StdMap

theorem sorted_cons {V : Type} {a : String × V} {m : List (String × V)} :
    Sorted (a :: m) ↔ (∀ x ∈ m, a.1 < x.1) ∧ Sorted m := List.pairwise_cons

theorem find_insert {V : Type} (k k' : String) (v : V) (m : List (String × V)) :
    find k (insert k' v m) = if k = k' then some v else find k m := by
  induction m with
  | nil => simp [insert, find]
  | cons a t ih =>
    obtain ⟨ka, va⟩ := a
    by_cases h1 : k' < ka
    · by_cases hk : k = k'
      · simp [insert, find, h1, hk]
      · simp [insert, find, h1, hk]
    · by_cases h2 : k' = ka
      · subst h2
        by_cases hk : k = k'
        · simp [insert, find, hk]
        · simp [insert, find, hk]
      · by_cases hk : k = k'
        · subst hk; simp [insert, find, h1, h2, ih]
        · simp [insert, find, h1, h2, ih, hk]

theorem mem_of_mem_insert {V : Type} {k : String} {v : V} {m : List (String × V)}
    {x : String × V} (h : x ∈ insert k v m) : x = (k, v) ∨ x ∈ m := by
  induction m with
  | nil => simpa [insert] using h
  | cons a t ih =>
    obtain ⟨ka, va⟩ := a
    simp only [insert] at h
    split_ifs at h with h1 h2
    · simpa using h
    · rcases List.mem_cons.1 h with h | h
      · exact Or.inl h
      · exact Or.inr (List.mem_cons_of_mem _ h)
    · rcases List.mem_cons.1 h with h | h
      · exact Or.inr (h ▸ List.mem_cons_self _ _)
      · rcases ih h with h | h
        · exact Or.inl h
        · exact Or.inr (List.mem_cons_of_mem _ h)

theorem insert_sorted {V : Type} (k : String) (v : V) {m : List (String × V)}
    (hm : Sorted m) : Sorted (insert k v m) := by
  induction m with
  | nil => simp [insert, Sorted]
  | cons a t ih =>
    obtain ⟨ka, va⟩ := a
    obtain ⟨hlt, ht⟩ := sorted_cons.1 hm
    simp only [insert]
    split_ifs with h1 h2
    · refine sorted_cons.2 ⟨?_, hm⟩
      intro x hx
      rcases List.mem_cons.1 hx with hx | hx
      · subst hx; exact h1
      · exact lt_trans h1 (hlt x hx)
    · subst h2; exact sorted_cons.2 ⟨hlt, ht⟩
    · refine sorted_cons.2 ⟨?_, ih ht⟩
      intro x hx
      rcases mem_of_mem_insert hx with hx | hx
      · subst hx; exact lt_of_le_of_ne (not_lt.1 h1) (Ne.symm h2)
      · exact hlt x hx

/-- On a sorted map `erase` drops exactly the entries under `k`. -/
theorem erase_eq_filter {V : Type} (k : String) {m : List (String × V)} (hm : Sorted m) :
    erase k m = m.filter (fun x => decide (x.1 ≠ k)) := by
  induction m with
  | nil => rfl
  | cons a t ih =>
    obtain ⟨ka, va⟩ := a
    obtain ⟨hlt, ht⟩ := sorted_cons.1 hm
    simp only [erase]
    split_ifs with h1
    · subst h1
      simp only [ne_eq, not_true_eq_false, decide_False, Bool.false_eq_true, not_false_eq_true,
        List.filter_cons_of_neg]
      symm
      rw [List.filter_eq_self]
      intro x hx
      simpa using (ne_of_gt (hlt x hx))
    · rw [List.filter_cons_of_pos (by simpa using Ne.symm h1), ih ht]

/-- On a sorted map `insert` replaces the entries under `k` by the new one. -/
theorem filter_insert {V : Type} (k : String) (v : V) {m : List (String × V)} (hm : Sorted m) :
    (insert k v m).filter (fun x => decide (x.1 ≠ k)) = m.filter (fun x => decide (x.1 ≠ k)) := by
  induction m with
  | nil => simp [insert]
  | cons a t ih =>
    obtain ⟨ka, va⟩ := a
    obtain ⟨hlt, ht⟩ := sorted_cons.1 hm
    simp only [insert]
    split_ifs with h1 h2
    · simp
    · subst h2; simp
    · have h3 : ka ≠ k := Ne.symm h2
      rw [List.filter_cons_of_pos (by simpa using h3),
        List.filter_cons_of_pos (by simpa using h3), ih ht]

theorem erase_sorted {V : Type} (k : String) {m : List (String × V)} (hm : Sorted m) :
    Sorted (erase k m) := by
  rw [erase_eq_filter k hm]
  exact List.Pairwise.filter _ hm

theorem mem_insert {V : Type} {k : String} {v : V} {m : List (String × V)} (hm : Sorted m)
    {x : String × V} : x ∈ insert k v m ↔ x = (k, v) ∨ (x ∈ m ∧ x.1 ≠ k) := by
  induction m with
  | nil => simp [insert]
  | cons a t ih =>
    obtain ⟨ka, va⟩ := a
    obtain ⟨hlt, ht⟩ := sorted_cons.1 hm
    simp only [insert]
    split_ifs with h1 h2
    · simp only [List.mem_cons]
      constructor
      · rintro (h | h | h)
        · exact Or.inl h
        · subst h; exact Or.inr ⟨Or.inl rfl, ne_of_gt h1⟩
        · exact Or.inr ⟨Or.inr h, ne_of_gt (lt_trans h1 (hlt x h))⟩
      · rintro (h | ⟨h | h, _⟩)
        · exact Or.inl h
        · exact Or.inr (Or.inl h)
        · exact Or.inr (Or.inr h)
    · subst h2
      simp only [List.mem_cons]
      constructor
      · rintro (h | h)
        · exact Or.inl h
        · exact Or.inr ⟨Or.inr h, ne_of_gt (hlt x h)⟩
      · rintro (h | ⟨h | h, hne⟩)
        · exact Or.inl h
        · subst h; exact absurd rfl hne
        · exact Or.inr h
    · simp only [List.mem_cons, ih ht]
      constructor
      · rintro (h | h | ⟨h, hne⟩)
        · subst h; exact Or.inr ⟨Or.inl rfl, Ne.symm h2⟩
        · exact Or.inl h
        · exact Or.inr ⟨Or.inr h, hne⟩
      · rintro (h | ⟨h | h, hne⟩)
        · exact Or.inr (Or.inl h)
        · exact Or.inl h
        · exact Or.inr (Or.inr ⟨h, hne⟩)

theorem find_eq_some_iff {V : Type} {k : String} {v : V} {m : List (String × V)}
    (hm : Sorted m) : find k m = some v ↔ (k, v) ∈ m := by
  induction m with
  | nil => simp [find]
  | cons a t ih =>
    obtain ⟨ka, va⟩ := a
    obtain ⟨hlt, ht⟩ := sorted_cons.1 hm
    simp only [find]
    split_ifs with h1
    · subst h1
      simp only [Option.some.injEq, List.mem_cons, Prod.mk.injEq, true_and]
      constructor
      · intro h; exact Or.inl h.symm
      · rintro (h | h)
        · exact h.symm
        · exact absurd (hlt _ h) (lt_irrefl _)
    · simp [ih ht, h1]

theorem find_eq_none_iff {V : Type} {k : String} {m : List (String × V)} :
    find k m = none ↔ ∀ x ∈ m, x.1 ≠ k := by
  induction m with
  | nil => simp [find]
  | cons a t ih =>
    obtain ⟨ka, va⟩ := a
    simp only [find]
    split_ifs with h1
    · subst h1; simp
    · simp [ih, Ne.symm h1]

end StdMap

/-! ## The store operations -/

theorem foldl_push_eq {α β : Type} (f : α → β) (l : List α) (init : List β) :
    l.foldl (fun acc e => acc ++ [f e]) init = init ++ l.map f := by
  induction l generalizing init with
  | nil => simp
  | cons a t ih => simp [ih]

theorem getAllOrders_eq (c : OrderCache) : getAllOrders c = c.orders.map Prod.snd := by
  simp [getAllOrders, foldl_push_eq]

theorem eraseLoop_eq_filter (test : Order → Bool) (l : List (String × Order)) :
    eraseLoop test l = l.filter (fun e => !test e.2) := by
  induction l with
  | nil => rfl
  | cons a t ih =>
    obtain ⟨k, o⟩ := a
    by_cases h : test o = true
    · simp [eraseLoop, h, ih]
    · simp [eraseLoop, h, ih]

theorem valid_empty : OrderCache.empty.Valid :=
  ⟨List.Pairwise.nil, fun _ h => absurd h (List.not_mem_nil _)⟩

theorem valid_addOrder {c : OrderCache} (order : Order) (h : c.Valid) :
    (addOrder c order).Valid := by
  refine ⟨StdMap.insert_sorted _ _ h.1, ?_⟩
  intro e he
  rcases StdMap.mem_of_mem_insert he with he | he
  · subst he; rfl
  · exact h.2 e he

theorem valid_filter {c : OrderCache} (p : String × Order → Bool) (h : c.Valid) :
    OrderCache.Valid ⟨c.orders.filter p⟩ :=
  ⟨List.Pairwise.filter _ h.1, fun e he => h.2 e (List.mem_of_mem_filter he)⟩

theorem valid_cancelOrder {c : OrderCache} (orderId : String) (h : c.Valid) :
    (cancelOrder c orderId).Valid := by
  have := valid_filter (fun x => decide (x.1 ≠ orderId)) h
  rwa [← StdMap.erase_eq_filter orderId h.1] at this

theorem reachable_valid {c : OrderCache} (h : Reachable c) : c.Valid := by
  induction h with
  | empty => exact valid_empty
  | addOrder c order _ ih => exact valid_addOrder order ih
  | cancelOrder c orderId _ ih => exact valid_cancelOrder orderId ih
  | cancelOrdersForUser c user _ ih =>
    simp only [cancelOrdersForUser, eraseLoop_eq_filter]
    exact valid_filter _ ih
  | cancelOrdersForSecIdWithMinimumQty c securityId minQty _ ih =>
    simp only [cancelOrdersForSecIdWithMinimumQty, eraseLoop_eq_filter]
    exact valid_filter _ ih
  | getMatchingSizeForSecurity c securityId _ ih => exact ih

/-- After a run of `addOrder` calls, looking an identifier up in the store gives
the last order of the run that carries it. -/
theorem find_foldl_addOrder (os : List Order) (k : String) :
    StdMap.find k (os.foldl addOrder OrderCache.empty).orders =
      os.reverse.find? (fun x => decide (x.orderId = k)) := by
  induction os using List.reverseRecOn with
  | nil => rfl
  | append_singleton l o ih =>
    rw [List.foldl_append, List.reverse_append]
    simp only [List.foldl_cons, List.foldl_nil, addOrder, List.reverse_cons, List.reverse_nil,
      List.nil_append, List.singleton_append, List.find?_cons]
    rw [StdMap.find_insert, ih]
    by_cases h : k = o.orderId
    · subst h; simp
    · have h' : ¬ o.orderId = k := fun e => h e.symm
      simp [h, h']

theorem valid_foldl_addOrder (os : List Order) :
    (os.foldl addOrder OrderCache.empty).Valid := by
  induction os using List.reverseRecOn with
  | nil => exact valid_empty
  | append_singleton l o ih =>
    rw [List.foldl_append]
    exact valid_addOrder o ih

theorem mem_getAllOrders_iff {c : OrderCache} (h : c.Valid) (o : Order) :
    o ∈ getAllOrders c ↔ StdMap.find o.orderId c.orders = some o := by
  rw [getAllOrders_eq, StdMap.find_eq_some_iff h.1]
  constructor
  · intro ho
    obtain ⟨e, he, rfl⟩ := List.mem_map.1 ho
    have := h.2 e he
    obtain ⟨k, v⟩ := e
    simp only at this
    subst this
    exact he
  · intro ho
    exact List.mem_map.2 ⟨_, ho, rfl⟩

theorem ids_sorted {c : OrderCache} (h : c.Valid) :
    ((getAllOrders c).map Order.orderId).Pairwise (· < ·) := by
  rw [getAllOrders_eq, List.map_map, List.pairwise_map]
  refine List.Pairwise.imp_of_mem ?_ h.1
  intro a b ha hb hab
  simp only [Function.comp]
  rw [← h.2 a ha, ← h.2 b hb]
  exact hab

theorem cancel_add_orders {c : OrderCache} (h : c.Valid) (o : Order) :
    (cancelOrder (addOrder c o) o.orderId).orders =
      c.orders.filter (fun e => decide (e.1 ≠ o.orderId)) := by
  simp only [cancelOrder, addOrder]
  rw [StdMap.erase_eq_filter _ (StdMap.insert_sorted _ _ h.1), StdMap.filter_insert _ _ h.1]

/-- C6: after any run of `addOrder` calls on a fresh cache, the identifiers
returned by `getAllOrders` are pairwise distinct and are exactly those occurring
in the run, and the returned orders are exactly the last order of the run for
each identifier. -/
theorem addOrder_last_write_wins (os : List Order) :
    ((getAllOrders (os.foldl addOrder OrderCache.empty)).map Order.orderId).Nodup ∧
    (∀ k, k ∈ (getAllOrders (os.foldl addOrder OrderCache.empty)).map Order.orderId ↔
      k ∈ os.map Order.orderId) ∧
    (∀ o, o ∈ getAllOrders (os.foldl addOrder OrderCache.empty) ↔
      os.reverse.find? (fun x => decide (x.orderId = o.orderId)) = some o) := by
  have hv := valid_foldl_addOrder os
  have hmem : ∀ o, o ∈ getAllOrders (os.foldl addOrder OrderCache.empty) ↔
      os.reverse.find? (fun x => decide (x.orderId = o.orderId)) = some o := by
    intro o
    rw [mem_getAllOrders_iff hv, find_foldl_addOrder]
  refine ⟨?_, ?_, hmem⟩
  · exact (ids_sorted hv).imp (fun h => ne_of_lt h)
  · intro k
    constructor
    · intro hk
      obtain ⟨o, ho, rfl⟩ := List.mem_map.1 hk
      have := List.mem_of_find?_eq_some ((hmem o).1 ho)
      exact List.mem_map.2 ⟨o, List.mem_reverse.1 this, rfl⟩
    · intro hk
      obtain ⟨o, ho, rfl⟩ := List.mem_map.1 hk
      cases hf : os.reverse.find? (fun x => decide (x.orderId = o.orderId)) with
      | none =>
        have := List.find?_eq_none.1 hf o (List.mem_reverse.2 ho)
        simp at this
      | some o' =>
        have hid : o'.orderId = o.orderId := by
          have := List.find?_some hf
          simpa using this
        have : o' ∈ getAllOrders (os.foldl addOrder OrderCache.empty) := by
          rw [hmem o', hid]; exact hf
        exact List.mem_map.2 ⟨o', this, hid⟩

/-- C7: on a reachable cache, after `addOrder(o)` and `cancelOrder(o.orderId)`
no returned order carries that identifier, and the matching size is the one of
the cache with the entry under that key taken out (of the cache itself when it
held no order with that identifier). -/
theorem cancel_after_add_contributes_nothing (c : OrderCache) (hc : Reachable c) (o : Order)
    (s : String) :
    (∀ x ∈ getAllOrders (cancelOrder (addOrder c o) o.orderId), x.orderId ≠ o.orderId) ∧
    (getMatchingSizeForSecurity (cancelOrder (addOrder c o) o.orderId) s).1 =
      (getMatchingSizeForSecurity ⟨c.orders.filter (fun e => decide (e.1 ≠ o.orderId))⟩ s).1 ∧
    ((∀ x ∈ getAllOrders c, x.orderId ≠ o.orderId) →
      (getMatchingSizeForSecurity (cancelOrder (addOrder c o) o.orderId) s).1 =
        (getMatchingSizeForSecurity c s).1) := by
  have hv := reachable_valid hc
  have heq := cancel_add_orders hv o
  have hc' : cancelOrder (addOrder c o) o.orderId =
      ⟨c.orders.filter (fun e => decide (e.1 ≠ o.orderId))⟩ := by
    cases hcc : cancelOrder (addOrder c o) o.orderId with
    | mk l => rw [hcc] at heq; simpa using heq
  refine ⟨?_, by rw [hc'], ?_⟩
  · intro x hx
    rw [getAllOrders_eq, heq] at hx
    obtain ⟨e, he, rfl⟩ := List.mem_map.1 hx
    have h1 := (List.mem_filter.1 he)
    rw [← hv.2 e h1.1]
    simpa using h1.2
  · intro hno
    have : c.orders.filter (fun e => decide (e.1 ≠ o.orderId)) = c.orders := by
      rw [List.filter_eq_self]
      intro e he
      have := hno e.2 (by rw [getAllOrders_eq]; exact List.mem_map.2 ⟨e, he, rfl⟩)
      rw [← hv.2 e he] at this
      simpa using this
    rw [hc', this]

/-- C8: `cancelOrdersForUser(u)` keeps exactly the entries whose user is not
`u`, in their order; no returned order has user `u`, and the orders of the other
users are as many as before. -/
theorem cancelOrdersForUser_spec (c : OrderCache) (u : String) :
    (cancelOrdersForUser c u).orders = c.orders.filter (fun e => decide (e.2.user ≠ u)) ∧
    getAllOrders (cancelOrdersForUser c u) =
      (getAllOrders c).filter (fun o => decide (o.user ≠ u)) ∧
    (∀ o ∈ getAllOrders (cancelOrdersForUser c u), o.user ≠ u) ∧
    ((getAllOrders (cancelOrdersForUser c u)).filter (fun o => decide (o.user ≠ u))).length =
      ((getAllOrders c).filter (fun o => decide (o.user ≠ u))).length := by
  have h1 : (cancelOrdersForUser c u).orders =
      c.orders.filter (fun e => decide (e.2.user ≠ u)) := by
    simp only [cancelOrdersForUser, eraseLoop_eq_filter]
    congr 1
    funext e
    simp
  have h2 : getAllOrders (cancelOrdersForUser c u) =
      (getAllOrders c).filter (fun o => decide (o.user ≠ u)) := by
    rw [getAllOrders_eq, getAllOrders_eq, h1, List.filter_map]
    rfl
  refine ⟨h1, h2, ?_, ?_⟩
  · intro o ho
    rw [h2] at ho
    simpa using (List.mem_filter.1 ho).2
  · rw [h2, List.filter_filter]
    simp

/-- C9: `cancelOrdersForSecIdWithMinimumQty(s, m)` keeps exactly the entries
that are not (security `s` and quantity at least `m`); every returned order for
`s` has a quantity below `m`, an entry for `s` with quantity exactly `m` is gone,
and every entry of another security or with a quantity below `m` stays as it is. -/
theorem cancelOrdersForSecIdWithMinimumQty_spec (c : OrderCache) (s : String) (m : Nat) :
    (cancelOrdersForSecIdWithMinimumQty c s m).orders =
      c.orders.filter (fun e => decide (¬ (e.2.securityId = s ∧ e.2.qty ≥ m))) ∧
    getAllOrders (cancelOrdersForSecIdWithMinimumQty c s m) =
      (getAllOrders c).filter (fun o => decide (¬ (o.securityId = s ∧ o.qty ≥ m))) ∧
    (∀ o ∈ getAllOrders (cancelOrdersForSecIdWithMinimumQty c s m),
      o.securityId = s → o.qty < m) ∧
    (∀ e ∈ c.orders, e.2.securityId = s → e.2.qty = m →
      e ∉ (cancelOrdersForSecIdWithMinimumQty c s m).orders) ∧
    (∀ e ∈ c.orders, e.2.securityId ≠ s ∨ e.2.qty < m →
      e ∈ (cancelOrdersForSecIdWithMinimumQty c s m).orders) := by
  have h1 : (cancelOrdersForSecIdWithMinimumQty c s m).orders =
      c.orders.filter (fun e => decide (¬ (e.2.securityId = s ∧ e.2.qty ≥ m))) := by
    simp only [cancelOrdersForSecIdWithMinimumQty, eraseLoop_eq_filter]
    congr 1
    funext e
    by_cases hs : e.2.securityId = s <;> by_cases hq : m ≤ e.2.qty <;> simp [hs, hq]
  have h2 : getAllOrders (cancelOrdersForSecIdWithMinimumQty c s m) =
      (getAllOrders c).filter (fun o => decide (¬ (o.securityId = s ∧ o.qty ≥ m))) := by
    rw [getAllOrders_eq, getAllOrders_eq, h1, List.filter_map]
    rfl
  refine ⟨h1, h2, ?_, ?_, ?_⟩
  · intro o ho hs
    rw [h2] at ho
    have := (List.mem_filter.1 ho).2
    simp only [ge_iff_le, not_and, not_le, decide_eq_true_eq] at this
    exact this hs
  · intro e _ hs hq he
    rw [h1] at he
    have := (List.mem_filter.1 he).2
    simp only [ge_iff_le, not_and, not_le, decide_eq_true_eq] at this
    exact absurd (this hs) (by omega)
  · intro e he hor
    rw [h1]
    refine List.mem_filter.2 ⟨he, ?_⟩
    simp only [ge_iff_le, not_and, not_le, decide_eq_true_eq]
    intro hs
    rcases hor with h | h
    · exact absurd hs h
    · exact h

/-- C10: on a reachable cache `getAllOrders` returns the stored orders, each
once and as stored, and their identifiers are strictly ascending. -/
theorem getAllOrders_ascending (c : OrderCache) (hc : Reachable c) :
    getAllOrders c = c.orders.map Prod.snd ∧
    ((getAllOrders c).map Order.orderId).Pairwise (· < ·) :=
  ⟨getAllOrders_eq c, ids_sorted (reachable_valid hc)⟩

/-! ## The aggregation loop -/

/-- Every quantity of a map reduced to `unsigned int`. -/
theorem StdMap.map_insert {V W : Type} (f : V → W) (k : String) (v : V) (m : List (String × V)) :
    (StdMap.insert k v m).map (fun e => (e.1, f e.2)) =
      StdMap.insert k (f v) (m.map (fun e => (e.1, f e.2))) := by
  induction m with
  | nil => rfl
  | cons a t ih =>
    obtain ⟨ka, va⟩ := a
    simp only [StdMap.insert, List.map_cons]
    split_ifs with h1 h2
    · rfl
    · rfl
    · simp [ih]

theorem StdMap.find_map {V W : Type} (f : V → W) (k : String) (m : List (String × V)) :
    StdMap.find k (m.map (fun e => (e.1, f e.2))) = (StdMap.find k m).map f := by
  induction m with
  | nil => rfl
  | cons a t ih =>
    obtain ⟨ka, va⟩ := a
    simp only [StdMap.find, List.map_cons]
    split_ifs with h1
    · rfl
    · exact ih

theorem StdMap.sorted_map {V W : Type} (f : V → W) {m : List (String × V)}
    (h : StdMap.Sorted m) : StdMap.Sorted (m.map (fun e => (e.1, f e.2))) := by
  unfold StdMap.Sorted at *
  rw [List.pairwise_map]
  exact h

theorem buildBook_append (l : List (String × Order)) (e : String × Order) (s : String) :
    buildBook ⟨l ++ [e]⟩ s = buildStep s (buildBook ⟨l⟩ s) e := by
  simp [buildBook, List.foldl_append]

theorem Spec.qtyByUser_append (side s : String) (l : List Order) (o : Order) :
    Spec.qtyByUser side s (l ++ [o]) =
      if o.securityId = s ∧ o.side = side then
        StdMap.insert o.user (StdMap.get 0 o.user (Spec.qtyByUser side s l) + o.qty)
          (Spec.qtyByUser side s l)
      else Spec.qtyByUser side s l := by
  simp [Spec.qtyByUser, List.foldl_append]

theorem Spec.companyByUser_append (s : String) (l : List Order) (o : Order) :
    Spec.companyByUser s (l ++ [o]) =
      if o.securityId = s then StdMap.insert o.user o.company (Spec.companyByUser s l)
      else Spec.companyByUser s l := by
  simp [Spec.companyByUser, List.foldl_append]

theorem Spec.qtyByUser_sorted (side s : String) (l : List Order) :
    StdMap.Sorted (Spec.qtyByUser side s l) := by
  induction l using List.reverseRecOn with
  | nil => exact List.Pairwise.nil
  | append_singleton l o ih =>
    rw [Spec.qtyByUser_append]
    split_ifs
    · exact StdMap.insert_sorted _ _ ih
    · exact ih

theorem buildStep_userCompanyMap (s : String) (b : Book) (e : String × Order) :
    (buildStep s b e).userCompanyMap =
      if e.2.securityId = s then StdMap.insert e.2.user e.2.company b.userCompanyMap
      else b.userCompanyMap := by
  unfold buildStep
  split_ifs <;> rfl

theorem get_insert_default {V : Type} (d : V) (k k' : String) (m : List (String × V))
    (h : (StdMap.find k' m).isNone = true) :
    StdMap.get d k (StdMap.insert k' d m) = StdMap.get d k m := by
  unfold StdMap.get
  rw [StdMap.find_insert]
  split_ifs with hk
  · subst hk
    rw [Option.isNone_iff_eq_none.1 h]; rfl
  · rfl

theorem get_insert {V : Type} (d : V) (k k' : String) (v : V) (m : List (String × V)) :
    StdMap.get d k (StdMap.insert k' v m) = if k = k' then v else StdMap.get d k m := by
  unfold StdMap.get
  rw [StdMap.find_insert]
  split_ifs <;> rfl

/-- What one step of the aggregation loop does to the per-user map of a side. -/
theorem buildStep_orderBook (s side : String) (b : Book) (e : String × Order) :
    StdMap.get [] side (buildStep s b e).orderBook =
      if e.2.securityId = s ∧ e.2.side = side then
        StdMap.insert e.2.user
          ((StdMap.get 0 e.2.user (StdMap.get [] side b.orderBook) + e.2.qty) % UINT_MOD)
          (StdMap.get [] side b.orderBook)
      else StdMap.get [] side b.orderBook := by
  unfold buildStep
  by_cases h : e.2.securityId = s
  · simp only [h, if_true, true_and]
    by_cases hn : (StdMap.find e.2.side b.orderBook).isNone = true
    · simp only [hn, if_true]
      rw [get_insert, get_insert_default _ _ _ _ hn]
      by_cases hs : e.2.side = side
      · subst hs; simp
      · have hs' : ¬ side = e.2.side := fun h => hs h.symm
        simp only [hs, hs', if_false]
        exact get_insert_default _ _ _ _ hn
    · simp only [hn]
      rw [get_insert]
      by_cases hs : e.2.side = side
      · subst hs; simp
      · have hs' : ¬ side = e.2.side := fun h => hs h.symm
        simp [hs, hs']
  · simp [h]

theorem buildStep_find_none (s side : String) (b : Book) (e : String × Order)
    (hb : StdMap.find side b.orderBook = none) (he : e.2.securityId = s → e.2.side ≠ side) :
    StdMap.find side (buildStep s b e).orderBook = none := by
  unfold buildStep
  by_cases hs : e.2.securityId = s
  · have hne : ¬ side = e.2.side := fun h' => he hs h'.symm
    simp only [hs, if_true]
    rw [StdMap.find_insert]
    simp only [hne, if_false]
    split_ifs with hn
    · rw [StdMap.find_insert]; simp only [hne, if_false]; exact hb
    · exact hb
  · simp only [hs, if_false]
    exact hb

/-- The user-to-company map of the code is the lookup of the specification. -/
theorem buildBook_userCompanyMap (c : OrderCache) (s : String) :
    (buildBook c s).userCompanyMap = Spec.companyByUser s (c.orders.map Prod.snd) := by
  obtain ⟨l⟩ := c
  induction l using List.reverseRecOn with
  | nil => rfl
  | append_singleton l e ih =>
    rw [buildBook_append, List.map_append, List.map_singleton, Spec.companyByUser_append,
      buildStep_userCompanyMap]
    simp only at ih
    rw [ih]

/-- The per-user map the code keeps for a side holds the sums of the
specification, each reduced modulo `2 ^ 32`. -/
theorem buildBook_orderBook (c : OrderCache) (s side : String) :
    StdMap.get [] side (buildBook c s).orderBook =
      (Spec.qtyByUser side s (c.orders.map Prod.snd)).map (fun e => (e.1, e.2 % UINT_MOD)) := by
  obtain ⟨l⟩ := c
  induction l using List.reverseRecOn with
  | nil => rfl
  | append_singleton l e ih =>
    rw [buildBook_append, List.map_append, List.map_singleton, Spec.qtyByUser_append,
      buildStep_orderBook]
    simp only at ih
    rw [ih]
    split_ifs with h
    · rw [StdMap.map_insert (fun x => x % UINT_MOD)]
      congr 1
      unfold StdMap.get
      rw [StdMap.find_map (fun x => x % UINT_MOD)]
      cases StdMap.find e.2.user (Spec.qtyByUser side s (l.map Prod.snd)) with
      | none => simp
      | some x => simp [Nat.mod_add_mod]
    · rfl

/-- A side none of whose orders is stored for the security has no entry in the
order book. -/
theorem buildBook_find_none (c : OrderCache) (s side : String)
    (h : ∀ e ∈ c.orders, e.2.securityId = s → e.2.side ≠ side) :
    StdMap.find side (buildBook c s).orderBook = none := by
  obtain ⟨l⟩ := c
  induction l using List.reverseRecOn with
  | nil => rfl
  | append_singleton l e ih =>
    simp only at h ih
    rw [buildBook_append]
    exact buildStep_find_none _ _ _ _ (ih (fun x hx => h x (List.mem_append_left _ hx)))
      (h e (List.mem_append_right _ (List.mem_singleton_self e)))

/-! ## The pairing loops -/

theorem sellLoop_skip {ucm : List (String × String)} {bu su : String}
    (h : StdMap.get "" bu ucm = StdMap.get "" su ucm) (sq : Nat) (rest : QtyMap) (b t : Nat) :
    sellLoop ucm bu ((su, sq) :: rest) b t =
      { sellLoop ucm bu rest b t with
        sellOrders := (su, sq) :: (sellLoop ucm bu rest b t).sellOrders } := by
  rw [sellLoop]; simp [h]

theorem sellLoop_match {ucm : List (String × String)} {bu su : String}
    (h : StdMap.get "" bu ucm ≠ StdMap.get "" su ucm) (sq : Nat) (rest : QtyMap) (b t : Nat) :
    sellLoop ucm bu ((su, sq) :: rest) b t =
      { sellOrders := (su, sq - min b sq) ::
          (sellLoop ucm bu rest (b - min b sq) ((t + min b sq) % UINT_MOD)).sellOrders
        sellOrdersToRemove :=
          if sq - min b sq = 0 then
            su :: (sellLoop ucm bu rest (b - min b sq)
              ((t + min b sq) % UINT_MOD)).sellOrdersToRemove
          else (sellLoop ucm bu rest (b - min b sq)
              ((t + min b sq) % UINT_MOD)).sellOrdersToRemove
        buyOrderQty :=
          (sellLoop ucm bu rest (b - min b sq) ((t + min b sq) % UINT_MOD)).buyOrderQty
        totalQty :=
          (sellLoop ucm bu rest (b - min b sq) ((t + min b sq) % UINT_MOD)).totalQty
        matched := ⟨bu, su, min b sq⟩ ::
          (sellLoop ucm bu rest (b - min b sq) ((t + min b sq) % UINT_MOD)).matched } := by
  rw [sellLoop]; simp only [h, ne_eq, not_false_eq_true, if_true]

theorem sellLoop_keys (ucm : List (String × String)) (bu : String) (S : QtyMap) (b t : Nat) :
    (sellLoop ucm bu S b t).sellOrders.map Prod.fst = S.map Prod.fst := by
  induction S generalizing b t with
  | nil => rfl
  | cons a rest ih =>
    obtain ⟨su, sq⟩ := a
    by_cases h : StdMap.get "" bu ucm = StdMap.get "" su ucm
    · rw [sellLoop_skip h]; simp [ih]
    · rw [sellLoop_match h]; simp [ih]

theorem sellLoop_sorted (ucm : List (String × String)) (bu : String) {S : QtyMap} (b t : Nat)
    (h : StdMap.Sorted S) : StdMap.Sorted (sellLoop ucm bu S b t).sellOrders := by
  have hk := sellLoop_keys ucm bu S b t
  unfold StdMap.Sorted at *
  rw [← List.pairwise_map (f := Prod.fst)] at h ⊢
  rw [hk]; exact h

/-- Every user marked for removal is left with quantity zero. -/
theorem sellLoop_toRemove (ucm : List (String × String)) (bu : String) (S : QtyMap) (b t : Nat) :
    ∀ k ∈ (sellLoop ucm bu S b t).sellOrdersToRemove,
      (k, 0) ∈ (sellLoop ucm bu S b t).sellOrders := by
  induction S generalizing b t with
  | nil => intro k hk; simp [sellLoop] at hk
  | cons a rest ih =>
    obtain ⟨su, sq⟩ := a
    intro k hk
    by_cases h : StdMap.get "" bu ucm = StdMap.get "" su ucm
    · rw [sellLoop_skip h] at hk ⊢
      exact List.mem_cons_of_mem _ (ih _ _ k hk)
    · rw [sellLoop_match h] at hk ⊢
      simp only at hk ⊢
      by_cases h0 : sq - min b sq = 0
      · rw [if_pos h0] at hk
        rcases List.mem_cons.1 hk with hk | hk
        · subst hk; rw [h0]; exact List.mem_cons_self _ _
        · exact List.mem_cons_of_mem _ (ih _ _ k hk)
      · rw [if_neg h0] at hk
        exact List.mem_cons_of_mem _ (ih _ _ k hk)

theorem sorted_unique {V : Type} {m : List (String × V)} (h : StdMap.Sorted m) {k : String}
    {v w : V} (hv : (k, v) ∈ m) (hw : (k, w) ∈ m) : v = w := by
  have h1 := (StdMap.find_eq_some_iff h).2 hv
  have h2 := (StdMap.find_eq_some_iff h).2 hw
  rw [h1] at h2
  exact Option.some.inj h2

theorem nonzero_erase {X : QtyMap} (hX : StdMap.Sorted X) (k : String)
    (hk : ∀ v, (k, v) ∈ X → v = 0) : nonzero (StdMap.erase k X) = nonzero X := by
  rw [StdMap.erase_eq_filter k hX]
  unfold nonzero
  rw [List.filter_filter]
  apply List.filter_congr
  intro e he
  obtain ⟨ke, ve⟩ := e
  by_cases hz : ve = 0
  · simp [hz]
  · have : ke ≠ k := by
      intro hke; subst hke; exact hz (hk ve he)
    simp [hz, this]

theorem nonzero_eraseAll (rm : List String) {X : QtyMap} (hX : StdMap.Sorted X)
    (hrm : ∀ k ∈ rm, ∀ v, (k, v) ∈ X → v = 0) :
    nonzero (eraseAll rm X) = nonzero X ∧ StdMap.Sorted (eraseAll rm X) := by
  induction rm generalizing X with
  | nil => exact ⟨rfl, hX⟩
  | cons k rest ih =>
    have hs := StdMap.erase_sorted k hX
    have hsub : ∀ e, e ∈ StdMap.erase k X → e ∈ X := by
      intro e he
      rw [StdMap.erase_eq_filter k hX] at he
      exact List.mem_of_mem_filter he
    have := ih hs (fun k' hk' v hv => hrm k' (List.mem_cons_of_mem _ hk') v (hsub _ hv))
    simp only [eraseAll, List.foldl_cons] at this ⊢
    refine ⟨?_, this.2⟩
    rw [this.1]
    exact nonzero_erase hX k (hrm k (List.mem_cons_self _ _))

/-- The sell map handed to the next buy user has the same users with a quantity
left as the one the inner loop produced. -/
theorem nonzero_after_sellLoop (ucm : List (String × String)) (bu : String) {S : QtyMap}
    (b t : Nat) (hS : StdMap.Sorted S) :
    nonzero (eraseAll (sellLoop ucm bu S b t).sellOrdersToRemove
        (sellLoop ucm bu S b t).sellOrders) = nonzero (sellLoop ucm bu S b t).sellOrders ∧
    StdMap.Sorted (eraseAll (sellLoop ucm bu S b t).sellOrdersToRemove
        (sellLoop ucm bu S b t).sellOrders) := by
  have hs := sellLoop_sorted ucm bu b t hS
  refine nonzero_eraseAll _ hs ?_
  intro k hk v hv
  exact sorted_unique hs hv (sellLoop_toRemove ucm bu S b t k hk)

theorem sellLoop_zero (ucm : List (String × String)) (bu : String) (S : QtyMap) (t : Nat) :
    (sellLoop ucm bu S 0 (t % UINT_MOD)).sellOrders = S ∧
    (sellLoop ucm bu S 0 (t % UINT_MOD)).buyOrderQty = 0 ∧
    (sellLoop ucm bu S 0 (t % UINT_MOD)).totalQty = t % UINT_MOD := by
  induction S with
  | nil => exact ⟨rfl, rfl, rfl⟩
  | cons a rest ih =>
    obtain ⟨su, sq⟩ := a
    by_cases h : StdMap.get "" bu ucm = StdMap.get "" su ucm
    · rw [sellLoop_skip h]
      exact ⟨by simp [ih.1], ih.2.1, ih.2.2⟩
    · rw [sellLoop_match h]
      simp only [Nat.zero_min, Nat.sub_zero, Nat.add_zero, Nat.mod_mod]
      exact ⟨by rw [ih.1], ih.2.1, ih.2.2⟩

theorem Spec.sellPass_zero (company : String → String) (bu : String) (S : QtyMap) (t : Nat) :
    Spec.sellPass company bu S 0 t = (S, 0, t) := by
  cases S with
  | nil => rfl
  | cons a rest => obtain ⟨su, sq⟩ := a; simp [Spec.sellPass]

theorem Spec.buyPass_cons (company : String → String) (bu : String) (b : Nat) (rest S : QtyMap)
    (t : Nat) :
    Spec.buyPass company ((bu, b) :: rest) S t =
      Spec.buyPass company rest (Spec.sellPass company bu S b t).1
        (Spec.sellPass company bu S b t).2.2 := by
  by_cases hb : b = 0
  · subst hb; simp [Spec.buyPass, Spec.sellPass_zero]
  · simp [Spec.buyPass, hb]

/-- One buy user: the inner loop of the code against the specification, on the
same sell map. -/
theorem sellLoop_vs_spec (ucm : List (String × String)) (bu : String) (S : QtyMap) (b t : Nat) :
    (sellLoop ucm bu S b (t % UINT_MOD)).buyOrderQty =
      (Spec.sellPass (fun u => StdMap.get "" u ucm) bu S b t).2.1 ∧
    (sellLoop ucm bu S b (t % UINT_MOD)).totalQty =
      (Spec.sellPass (fun u => StdMap.get "" u ucm) bu S b t).2.2 % UINT_MOD ∧
    nonzero (sellLoop ucm bu S b (t % UINT_MOD)).sellOrders =
      nonzero (Spec.sellPass (fun u => StdMap.get "" u ucm) bu S b t).1 := by
  induction S generalizing b t with
  | nil => exact ⟨rfl, rfl, rfl⟩
  | cons a rest ih =>
    obtain ⟨su, sq⟩ := a
    by_cases hb : b = 0
    · subst hb
      rw [Spec.sellPass_zero]
      have := sellLoop_zero ucm bu ((su, sq) :: rest) t
      exact ⟨this.2.1, this.2.2, by rw [this.1]⟩
    · by_cases hc : StdMap.get "" bu ucm = StdMap.get "" su ucm
      · have hspec : Spec.sellPass (fun u => StdMap.get "" u ucm) bu ((su, sq) :: rest) b t =
            ((su, sq) :: (Spec.sellPass (fun u => StdMap.get "" u ucm) bu rest b t).1,
              (Spec.sellPass (fun u => StdMap.get "" u ucm) bu rest b t).2) := by
          rw [Spec.sellPass]; simp [hb, hc]
        rw [sellLoop_skip hc, hspec]
        obtain ⟨h1, h2, h3⟩ := ih b t
        refine ⟨h1, h2, ?_⟩
        simp only [nonzero, List.filter_cons] at h3 ⊢
        rw [h3]
      · by_cases hq : sq = 0
        · subst hq
          have hspec : Spec.sellPass (fun u => StdMap.get "" u ucm) bu ((su, 0) :: rest) b t =
              ((su, 0) :: (Spec.sellPass (fun u => StdMap.get "" u ucm) bu rest b t).1,
                (Spec.sellPass (fun u => StdMap.get "" u ucm) bu rest b t).2) := by
            rw [Spec.sellPass]; simp [hb]
          rw [sellLoop_match hc, hspec]
          simp only [Nat.min_zero, Nat.sub_zero, Nat.add_zero, Nat.mod_mod]
          obtain ⟨h1, h2, h3⟩ := ih b t
          refine ⟨h1, h2, ?_⟩
          simp only [nonzero, List.filter_cons] at h3 ⊢
          rw [h3]
        · have hmod : (t % UINT_MOD + min b sq) % UINT_MOD = (t + min b sq) % UINT_MOD :=
            Nat.mod_add_mod _ _ _
          obtain ⟨h1, h2, h3⟩ := ih (b - min b sq) (t + min b sq)
          have hspec : Spec.sellPass (fun u => StdMap.get "" u ucm) bu ((su, sq) :: rest) b t =
              (if sq - min b sq = 0 then
                  (Spec.sellPass (fun u => StdMap.get "" u ucm) bu rest (b - min b sq)
                    (t + min b sq)).1
                else (su, sq - min b sq) ::
                  (Spec.sellPass (fun u => StdMap.get "" u ucm) bu rest (b - min b sq)
                    (t + min b sq)).1,
                (Spec.sellPass (fun u => StdMap.get "" u ucm) bu rest (b - min b sq)
                  (t + min b sq)).2) := by
            rw [Spec.sellPass]; simp only [hb, hq, hc, if_false]
          rw [sellLoop_match hc, hspec, hmod]
          refine ⟨h1, h2, ?_⟩
          simp only [nonzero, List.filter_cons] at h3 ⊢
          rw [h3]
          by_cases hz : sq - min b sq = 0
          · simp [hz]
          · simp [hz]

/-- The specification's pass over the sell users only depends on the users
with a quantity left. -/
theorem Spec.sellPass_nonzero (company : String → String) (bu : String) (S : QtyMap)
    (b t : Nat) :
    Spec.sellPass company bu (nonzero S) b t =
      (nonzero (Spec.sellPass company bu S b t).1, (Spec.sellPass company bu S b t).2) := by
  induction S generalizing b t with
  | nil => rfl
  | cons a rest ih =>
    obtain ⟨su, sq⟩ := a
    by_cases hb : b = 0
    · subst hb; rw [Spec.sellPass_zero, Spec.sellPass_zero]
    · by_cases hq : sq = 0
      · subst hq
        have h1 : nonzero ((su, 0) :: rest) = nonzero rest := by simp [nonzero]
        have h2 : Spec.sellPass company bu ((su, 0) :: rest) b t =
            ((su, 0) :: (Spec.sellPass company bu rest b t).1,
              (Spec.sellPass company bu rest b t).2) := by
          rw [Spec.sellPass]; simp [hb]
        rw [h1, h2, ih]
        simp [nonzero]
      · have h1 : nonzero ((su, sq) :: rest) = (su, sq) :: nonzero rest := by simp [nonzero, hq]
        rw [h1]
        by_cases hc : company bu = company su
        · have h2 : ∀ R, Spec.sellPass company bu ((su, sq) :: R) b t =
              ((su, sq) :: (Spec.sellPass company bu R b t).1,
                (Spec.sellPass company bu R b t).2) := by
            intro R; rw [Spec.sellPass]; simp [hb, hq, hc]
          rw [h2, h2, ih]
          simp [nonzero, hq]
        · have h2 : ∀ R, Spec.sellPass company bu ((su, sq) :: R) b t =
              (if sq - min b sq = 0 then
                  (Spec.sellPass company bu R (b - min b sq) (t + min b sq)).1
                else (su, sq - min b sq) ::
                  (Spec.sellPass company bu R (b - min b sq) (t + min b sq)).1,
                (Spec.sellPass company bu R (b - min b sq) (t + min b sq)).2) := by
            intro R; rw [Spec.sellPass]; simp only [hb, hq, hc, if_false]
          rw [h2, h2, ih]
          by_cases hz : sq - min b sq = 0
          · simp [hz]
          · simp [hz, nonzero]

theorem buyLoop_cons (ucm : List (String × String)) (bu : String) (b : Nat) (rest S : QtyMap)
    (t : Nat) :
    (buyLoop ucm ((bu, b) :: rest) S t).totalQty =
      (buyLoop ucm rest
        (eraseAll (sellLoop ucm bu S b t).sellOrdersToRemove (sellLoop ucm bu S b t).sellOrders)
        (sellLoop ucm bu S b t).totalQty).totalQty := by
  rw [buyLoop]

/-- The outer loop of the code returns the total of the specification modulo
`2 ^ 32`, whenever the two start from sell maps with the same users with a
quantity left. -/
theorem buyLoop_vs_spec (ucm : List (String × String)) (B : QtyMap) (S S' : QtyMap) (t : Nat)
    (hS : StdMap.Sorted S) (hnz : nonzero S = nonzero S') :
    (buyLoop ucm B S (t % UINT_MOD)).totalQty =
      Spec.buyPass (fun u => StdMap.get "" u ucm) B S' t % UINT_MOD := by
  induction B generalizing S S' t with
  | nil => rfl
  | cons a rest ih =>
    obtain ⟨bu, b⟩ := a
    rw [buyLoop_cons, Spec.buyPass_cons]
    obtain ⟨_, h2, h3⟩ := sellLoop_vs_spec ucm bu S b t
    obtain ⟨h4, h5⟩ := nonzero_after_sellLoop ucm bu b (t % UINT_MOD) hS
    have e1 := Spec.sellPass_nonzero (fun u => StdMap.get "" u ucm) bu S b t
    have e2 := Spec.sellPass_nonzero (fun u => StdMap.get "" u ucm) bu S' b t
    rw [hnz, e2] at e1
    have e3 := (Prod.mk.inj e1)
    rw [h2, ← e3.2]
    apply ih _ _ _ h5
    rw [h4, h3, e3.1]

theorem Spec.sellPass_conserve (company : String → String) (bu : String) (S : QtyMap)
    (b t : Nat) :
    (Spec.sellPass company bu S b t).2.1 + (Spec.sellPass company bu S b t).2.2 = b + t := by
  induction S generalizing b t with
  | nil => rfl
  | cons a rest ih =>
    obtain ⟨su, sq⟩ := a
    rw [Spec.sellPass]
    split_ifs with h1 h2 h3
    · rfl
    · exact ih b t
    · exact ih b t
    · simp only
      rw [ih]
      have : min b sq ≤ b := Nat.min_le_left _ _
      omega

theorem Spec.buyPass_le (company : String → String) (B S : QtyMap) (t : Nat) :
    Spec.buyPass company B S t ≤ t + qtySum B := by
  induction B generalizing S t with
  | nil => simp [Spec.buyPass]
  | cons a rest ih =>
    obtain ⟨bu, b⟩ := a
    rw [Spec.buyPass_cons]
    have h1 := ih (Spec.sellPass company bu S b t).1 (Spec.sellPass company bu S b t).2.2
    have h2 := Spec.sellPass_conserve company bu S b t
    simp only [qtySum, List.map_cons, List.sum_cons] at h1 ⊢
    omega

theorem Spec.buyPass_nil_sells (company : String → String) (B : QtyMap) (t : Nat) :
    Spec.buyPass company B [] t = t := by
  induction B generalizing t with
  | nil => rfl
  | cons a rest ih =>
    obtain ⟨bu, b⟩ := a
    rw [Spec.buyPass_cons]
    simp [Spec.sellPass, ih]

theorem get_of_lt_all {m : QtyMap} {k : String} (h : ∀ x ∈ m, k < x.1) :
    StdMap.get 0 k m = 0 := by
  unfold StdMap.get
  rw [StdMap.find_eq_none_iff.2 (fun x hx => ne_of_gt (h x hx))]
  rfl

theorem qtySum_insert_add {m : QtyMap} (hm : StdMap.Sorted m) (k : String) (q : Nat) :
    qtySum (StdMap.insert k (StdMap.get 0 k m + q) m) = qtySum m + q := by
  induction m with
  | nil => simp [StdMap.insert, StdMap.get, StdMap.find, qtySum]
  | cons a rest ih =>
    obtain ⟨ka, va⟩ := a
    obtain ⟨hlt, ht⟩ := StdMap.sorted_cons.1 hm
    by_cases h1 : k < ka
    · have h0 : StdMap.get 0 k ((ka, va) :: rest) = 0 := by
        apply get_of_lt_all
        intro x hx
        rcases List.mem_cons.1 hx with hx | hx
        · subst hx; exact h1
        · exact lt_trans h1 (hlt x hx)
      rw [h0]
      simp only [StdMap.insert, h1, if_true, qtySum, List.map_cons, List.sum_cons]
      omega
    · by_cases h2 : k = ka
      · subst h2
        simp [StdMap.insert, StdMap.get, StdMap.find, qtySum]
        omega
      · have hg : StdMap.get 0 k ((ka, va) :: rest) = StdMap.get 0 k rest := by
          simp [StdMap.get, StdMap.find, h2]
        rw [hg]
        have := ih ht
        simp only [StdMap.insert, h1, h2, if_false, qtySum, List.map_cons, List.sum_cons] at this ⊢
        omega

theorem totalQtyForSecurity_append (l : List (String × Order)) (e : String × Order)
    (s : String) :
    totalQtyForSecurity ⟨l ++ [e]⟩ s =
      totalQtyForSecurity ⟨l⟩ s + if e.2.securityId = s then e.2.qty else 0 := by
  unfold totalQtyForSecurity
  simp only [List.filter_append, List.map_append, List.sum_append]
  by_cases h : e.2.securityId = s
  · simp [h]
  · simp [h]

/-- The quantities aggregated for a side do not exceed the quantities stored
for the security. -/
theorem Spec.qtySum_qtyByUser_le (side s : String) (c : OrderCache) :
    qtySum (Spec.qtyByUser side s (c.orders.map Prod.snd)) ≤ totalQtyForSecurity c s := by
  obtain ⟨l⟩ := c
  induction l using List.reverseRecOn with
  | nil => simp [Spec.qtyByUser, qtySum]
  | append_singleton l e ih =>
    simp only at ih ⊢
    rw [List.map_append, List.map_singleton, Spec.qtyByUser_append, totalQtyForSecurity_append]
    split_ifs with h1 h2 h3
    · rw [qtySum_insert_add (Spec.qtyByUser_sorted _ _ _)]
      omega
    · exact absurd h1.1 h2
    · omega
    · omega

theorem le_qtySum {m : QtyMap} {e : String × Nat} (he : e ∈ m) : e.2 ≤ qtySum m := by
  unfold qtySum
  exact List.single_le_sum (fun x _ => Nat.zero_le x) _ (List.mem_map.2 ⟨e, he, rfl⟩)

theorem map_mod_eq_self {m : QtyMap} (h : qtySum m < UINT_MOD) :
    m.map (fun e => (e.1, e.2 % UINT_MOD)) = m := by
  conv_rhs => rw [← List.map_id m]
  apply List.map_congr_left
  intro e he
  have := le_qtySum he
  rw [Nat.mod_eq_of_lt (by omega)]
  rfl

/-- The total returned by the code, in terms of the specification's pairing
pass run on the maps the code aggregated. -/
theorem matchOrders_totalQty (c : OrderCache) (s : String) :
    (matchOrders (buildBook c s)).totalQty =
      Spec.buyPass (fun u => StdMap.get "" u (buildBook c s).userCompanyMap)
        (StdMap.get [] "Buy" (buildBook c s).orderBook)
        (StdMap.get [] "Sell" (buildBook c s).orderBook) 0 % UINT_MOD := by
  have hsorted : StdMap.Sorted (StdMap.get [] "Sell" (buildBook c s).orderBook) := by
    rw [buildBook_orderBook]
    exact StdMap.sorted_map (fun x => x % UINT_MOD) (Spec.qtyByUser_sorted _ _ _)
  unfold matchOrders
  split_ifs with h
  · have := buyLoop_vs_spec (buildBook c s).userCompanyMap
      (StdMap.get [] "Buy" (buildBook c s).orderBook) _ _ 0 hsorted rfl
    simp only [Nat.zero_mod] at this
    exact this
  · have hnone : StdMap.find "Buy" (buildBook c s).orderBook = none := by
      cases hf : StdMap.find "Buy" (buildBook c s).orderBook with
      | none => rfl
      | some x => rw [hf] at h; simp at h
    have : StdMap.get [] "Buy" (buildBook c s).orderBook = [] := by
      unfold StdMap.get; rw [hnone]; rfl
    rw [this]
    rfl

/-- C4: when no stored order for the security has side `Buy`, or none has side
`Sell`, `getMatchingSizeForSecurity` returns 0. -/
theorem getMatchingSizeForSecurity_one_sided (c : OrderCache) (s : String)
    (h : (∀ o ∈ getAllOrders c, o.securityId = s → o.side ≠ "Buy") ∨
      (∀ o ∈ getAllOrders c, o.securityId = s → o.side ≠ "Sell")) :
    (getMatchingSizeForSecurity c s).1 = 0 := by
  have hmem : ∀ e ∈ c.orders, e.2 ∈ getAllOrders c := by
    intro e he
    rw [getAllOrders_eq]
    exact List.mem_map.2 ⟨e, he, rfl⟩
  show (matchOrders (buildBook c s)).totalQty = 0
  rcases h with h | h
  · have hnone := buildBook_find_none c s "Buy" (fun e he => h e.2 (hmem e he))
    unfold matchOrders
    rw [hnone]
    rfl
  · have hnone := buildBook_find_none c s "Sell" (fun e he => h e.2 (hmem e he))
    have hnil : StdMap.get [] "Sell" (buildBook c s).orderBook = [] := by
      unfold StdMap.get; rw [hnone]; rfl
    rw [matchOrders_totalQty, hnil, Spec.buyPass_nil_sells]
    rfl

/-- C1, amended: when the quantities stored for the security sum to less than
`2 ^ 32`, `getMatchingSizeForSecurity` returns the total of the specification's
algorithm. -/
theorem getMatchingSizeForSecurity_refines_spec (c : OrderCache) (s : String)
    (h : totalQtyForSecurity c s < UINT_MOD) :
    (getMatchingSizeForSecurity c s).1 = Spec.matchingSize c s := by
  show (matchOrders (buildBook c s)).totalQty = Spec.matchingSize c s
  have hb := Spec.qtySum_qtyByUser_le "Buy" s c
  have hs := Spec.qtySum_qtyByUser_le "Sell" s c
  rw [matchOrders_totalQty, buildBook_orderBook, buildBook_orderBook, buildBook_userCompanyMap,
    map_mod_eq_self (lt_of_le_of_lt hb h), map_mod_eq_self (lt_of_le_of_lt hs h)]
  have hle := Spec.buyPass_le
    (fun u => StdMap.get "" u (Spec.companyByUser s (c.orders.map Prod.snd)))
    (Spec.qtyByUser "Buy" s (c.orders.map Prod.snd))
    (Spec.qtyByUser "Sell" s (c.orders.map Prod.snd)) 0
  rw [Nat.mod_eq_of_lt (by omega)]
  unfold Spec.matchingSize
  simp only
  cases hB : Spec.qtyByUser "Buy" s (c.orders.map Prod.snd) with
  | nil => simp [Spec.buyPass]
  | cons a B =>
    cases hS : Spec.qtyByUser "Sell" s (c.orders.map Prod.snd) with
    | nil => simp [Spec.buyPass_nil_sells]
    | cons a' S' => simp

/-! ## The record of matched pairs -/

theorem sellLoop_matched (ucm : List (String × String)) (bu : String) (S : QtyMap) (b t : Nat) :
    ∀ m ∈ (sellLoop ucm bu S b t).matched,
      StdMap.get "" m.buyUser ucm ≠ StdMap.get "" m.sellUser ucm := by
  induction S generalizing b t with
  | nil => intro m hm; simp [sellLoop] at hm
  | cons a rest ih =>
    obtain ⟨su, sq⟩ := a
    intro m hm
    by_cases h : StdMap.get "" bu ucm = StdMap.get "" su ucm
    · rw [sellLoop_skip h] at hm
      exact ih _ _ m hm
    · rw [sellLoop_match h] at hm
      rcases List.mem_cons.1 hm with hm | hm
      · subst hm; exact h
      · exact ih _ _ m hm

theorem buyLoop_matched (ucm : List (String × String)) (B S : QtyMap) (t : Nat) :
    ∀ m ∈ (buyLoop ucm B S t).matched,
      StdMap.get "" m.buyUser ucm ≠ StdMap.get "" m.sellUser ucm := by
  induction B generalizing S t with
  | nil => intro m hm; simp [buyLoop] at hm
  | cons a rest ih =>
    obtain ⟨bu, b⟩ := a
    intro m hm
    rw [buyLoop] at hm
    rcases List.mem_append.1 hm with hm | hm
    · exact sellLoop_matched ucm bu S b t m hm
    · exact ih _ _ m hm

theorem matchOrders_matched (b : Book) :
    ∀ m ∈ (matchOrders b).matched,
      StdMap.get "" m.buyUser b.userCompanyMap ≠ StdMap.get "" m.sellUser b.userCompanyMap := by
  intro m hm
  unfold matchOrders at hm
  split_ifs at hm with h
  · exact buyLoop_matched _ _ _ _ m hm
  · simp at hm

theorem sellLoop_total_matched (ucm : List (String × String)) (bu : String) (S : QtyMap)
    (b t : Nat) :
    (sellLoop ucm bu S b t).totalQty % UINT_MOD =
      (t + ((sellLoop ucm bu S b t).matched.map Match.qty).sum) % UINT_MOD := by
  induction S generalizing b t with
  | nil => simp [sellLoop]
  | cons a rest ih =>
    obtain ⟨su, sq⟩ := a
    by_cases h : StdMap.get "" bu ucm = StdMap.get "" su ucm
    · rw [sellLoop_skip h]; exact ih b t
    · rw [sellLoop_match h]
      simp only [List.map_cons, List.sum_cons]
      rw [ih, Nat.mod_add_mod, Nat.add_assoc]

theorem buyLoop_total_matched (ucm : List (String × String)) (B S : QtyMap) (t : Nat) :
    (buyLoop ucm B S t).totalQty % UINT_MOD =
      (t + ((buyLoop ucm B S t).matched.map Match.qty).sum) % UINT_MOD := by
  induction B generalizing S t with
  | nil => simp [buyLoop]
  | cons a rest ih =>
    obtain ⟨bu, b⟩ := a
    rw [buyLoop]
    simp only [List.map_append, List.sum_append]
    rw [ih, ← Nat.mod_add_mod, sellLoop_total_matched, Nat.mod_add_mod, Nat.add_assoc]

/-- The returned total is the sum of the recorded matches, in `unsigned int`. -/
theorem matchOrders_total_matched (c : OrderCache) (s : String) :
    (matchOrders (buildBook c s)).totalQty =
      ((matchOrders (buildBook c s)).matched.map Match.qty).sum % UINT_MOD := by
  have hlt : (matchOrders (buildBook c s)).totalQty < UINT_MOD := by
    rw [matchOrders_totalQty]
    exact Nat.mod_lt _ (by decide)
  rw [← Nat.mod_eq_of_lt hlt]
  unfold matchOrders
  split_ifs with h
  · have := buyLoop_total_matched (buildBook c s).userCompanyMap
      (StdMap.get [] "Buy" (buildBook c s).orderBook)
      (StdMap.get [] "Sell" (buildBook c s).orderBook) 0
    simpa using this
  · rfl

/-- The company the lookup holds for a user is the one of the last order, in
scan order, that the user has for the security. -/
theorem Spec.find_companyByUser (s u : String) (l : List Order) :
    StdMap.find u (Spec.companyByUser s l) =
      (l.reverse.find? (fun o => decide (o.securityId = s ∧ o.user = u))).map Order.company := by
  induction l using List.reverseRecOn with
  | nil => rfl
  | append_singleton l o ih =>
    rw [Spec.companyByUser_append, List.reverse_append]
    simp only [List.reverse_cons, List.reverse_nil, List.nil_append, List.singleton_append,
      List.find?_cons]
    by_cases hs : o.securityId = s
    · simp only [hs, if_true, true_and]
      rw [StdMap.find_insert]
      by_cases hu : u = o.user
      · subst hu; simp
      · have hu' : ¬ o.user = u := fun e => hu e.symm
        simp only [hu, if_false, hu', decide_False]
        exact ih
    · simp only [hs, if_false, false_and, decide_False]
      exact ih

/-- With one company per user, the lookup gives every stored order of the
security the company it carries. -/
theorem company_of_order {c : OrderCache} {s : String} (h : OneCompanyPerUser c s)
    {o : Order} (ho : o ∈ getAllOrders c) (hs : o.securityId = s) :
    StdMap.get "" o.user (buildBook c s).userCompanyMap = o.company := by
  rw [buildBook_userCompanyMap]
  unfold StdMap.get
  rw [Spec.find_companyByUser]
  rw [getAllOrders_eq] at ho
  cases hf : (c.orders.map Prod.snd).reverse.find?
      (fun x => decide (x.securityId = s ∧ x.user = o.user)) with
  | none =>
    have := List.find?_eq_none.1 hf o (List.mem_reverse.2 ho)
    simp [hs] at this
  | some o' =>
    have hp := List.find?_some hf
    simp only [decide_eq_true_eq] at hp
    have hm : o' ∈ getAllOrders c := by
      rw [getAllOrders_eq]
      exact List.mem_reverse.1 (List.mem_of_find?_eq_some hf)
    have ho' : o ∈ getAllOrders c := by rw [getAllOrders_eq]; exact ho
    simp only [Option.map_some', Option.getD_some]
    exact h o' hm o ho' hp.1 hs hp.2

/-- C2, amended: every pair of users the pairing loop matches a quantity for
has two different recorded companies, the recorded matches add up to the
returned total, and when each user's orders for the security carry one company
no `Buy` order of the buy user and `Sell` order of the sell user share a
company. -/
theorem same_company_exclusion (c : OrderCache) (s : String) :
    (∀ m ∈ (matchOrders (buildBook c s)).matched,
      StdMap.get "" m.buyUser (buildBook c s).userCompanyMap ≠
        StdMap.get "" m.sellUser (buildBook c s).userCompanyMap) ∧
    (getMatchingSizeForSecurity c s).1 =
      ((matchOrders (buildBook c s)).matched.map Match.qty).sum % UINT_MOD ∧
    (OneCompanyPerUser c s → SameCompanyExclusion c s) := by
  refine ⟨matchOrders_matched _, matchOrders_total_matched c s, ?_⟩
  intro h1 m hm _ ob hob os hos hbs _ hbu hss _ hsu
  have := matchOrders_matched _ m hm
  rw [← hbu, ← hsu, company_of_order h1 hob hbs, company_of_order h1 hos hss] at this
  exact this

/-! ## The claims at concrete caches -/

theorem overflow_orders : Examples.overflow.orders =
    [("OrdId1", ⟨"OrdId1", "SEC1", "Buy", 2147483648, "UserA", "CompanyX"⟩),
     ("OrdId2", ⟨"OrdId2", "SEC1", "Buy", 2147483648, "UserA", "CompanyX"⟩),
     ("OrdId3", ⟨"OrdId3", "SEC1", "Sell", 5, "UserB", "CompanyY"⟩)] := by
  simp +decide [Examples.overflow, addOrder, OrderCache.empty, StdMap.insert]

theorem mixedCompany_orders : Examples.mixedCompany.orders =
    [("OrdId1", ⟨"OrdId1", "SEC1", "Buy", 10, "UserA", "CompanyX"⟩),
     ("OrdId2", ⟨"OrdId2", "SEC1", "Buy", 10, "UserA", "CompanyY"⟩),
     ("OrdId3", ⟨"OrdId3", "SEC1", "Sell", 5, "UserB", "CompanyX"⟩)] := by
  simp +decide [Examples.mixedCompany, addOrder, OrderCache.empty, StdMap.insert]

theorem scenario_orders : Examples.scenario.orders =
    [("OrdId1", ⟨"OrdId1", "SEC1", "Buy", 500, "UserA", "CompanyX"⟩),
     ("OrdId2", ⟨"OrdId2", "SEC1", "Buy", 300, "UserB", "CompanyY"⟩),
     ("OrdId3", ⟨"OrdId3", "SEC1", "Sell", 400, "UserC", "CompanyX"⟩),
     ("OrdId4", ⟨"OrdId4", "SEC1", "Sell", 200, "UserD", "CompanyZ"⟩)] := by
  simp +decide [Examples.scenario, Examples.scenarioOrders, addOrder, OrderCache.empty,
    StdMap.insert]

theorem mixedCompany_matched :
    (matchOrders (buildBook Examples.mixedCompany "SEC1")).matched = [⟨"UserA", "UserB", 5⟩] := by
  simp +decide [buildBook, mixedCompany_orders, buildStep, StdMap.find, StdMap.get,
    StdMap.insert, matchOrders, buyLoop, sellLoop, eraseAll, StdMap.erase, UINT_MOD]

/-- C1, as stated, fails: with two `Buy` orders of `2 ^ 31` from one user and
a `Sell` order of 5 from another company the code returns 0 and the
specification's algorithm 5. -/
theorem refines_spec_fails_on_overflow :
    (getMatchingSizeForSecurity Examples.overflow "SEC1").1 = 0 ∧
    Spec.matchingSize Examples.overflow "SEC1" = 5 ∧
    (getMatchingSizeForSecurity Examples.overflow "SEC1").1 ≠
      Spec.matchingSize Examples.overflow "SEC1" := by
  have h1 : (getMatchingSizeForSecurity Examples.overflow "SEC1").1 = 0 := by
    simp +decide [getMatchingSizeForSecurity, buildBook, overflow_orders, buildStep, StdMap.find,
      StdMap.get, StdMap.insert, matchOrders, buyLoop, sellLoop, eraseAll, StdMap.erase, UINT_MOD]
  have h2 : Spec.matchingSize Examples.overflow "SEC1" = 5 := by
    simp +decide [Spec.matchingSize, overflow_orders, Spec.qtyByUser, Spec.companyByUser,
      StdMap.find, StdMap.get, StdMap.insert, Spec.buyPass, Spec.sellPass]
  exact ⟨h1, h2, by rw [h1, h2]; decide⟩

theorem scenario_total : totalQtyForSecurity Examples.scenario "SEC1" < UINT_MOD := by
  simp +decide [totalQtyForSecurity, scenario_orders, UINT_MOD]

theorem getMatchingSizeForSecurity_refines_spec_witness :
    totalQtyForSecurity Examples.scenario "SEC1" < UINT_MOD ∧
    (getMatchingSizeForSecurity Examples.scenario "SEC1").1 =
      Spec.matchingSize Examples.scenario "SEC1" :=
  ⟨scenario_total, getMatchingSizeForSecurity_refines_spec Examples.scenario "SEC1" scenario_total⟩

/-- C2, as stated, fails: `UserA` is matched 5 against `UserB`, although
`UserA`'s first `Buy` order and `UserB`'s `Sell` order both carry `CompanyX`. -/
theorem same_company_exclusion_fails_on_mixed_company :
    ¬ SameCompanyExclusion Examples.mixedCompany "SEC1" := by
  intro h
  have hall : getAllOrders Examples.mixedCompany =
      [⟨"OrdId1", "SEC1", "Buy", 10, "UserA", "CompanyX"⟩,
       ⟨"OrdId2", "SEC1", "Buy", 10, "UserA", "CompanyY"⟩,
       ⟨"OrdId3", "SEC1", "Sell", 5, "UserB", "CompanyX"⟩] := by
    rw [getAllOrders_eq, mixedCompany_orders]; rfl
  have hm : (⟨"UserA", "UserB", 5⟩ : Match) ∈
      (matchOrders (buildBook Examples.mixedCompany "SEC1")).matched := by
    rw [mixedCompany_matched]; exact List.mem_singleton_self _
  have := h ⟨"UserA", "UserB", 5⟩ hm (by decide)
    ⟨"OrdId1", "SEC1", "Buy", 10, "UserA", "CompanyX"⟩ (by rw [hall]; simp)
    ⟨"OrdId3", "SEC1", "Sell", 5, "UserB", "CompanyX"⟩ (by rw [hall]; simp)
    rfl rfl rfl rfl rfl rfl
  exact this rfl

theorem scenario_getAllOrders : getAllOrders Examples.scenario =
    Examples.scenarioOrders "OrdId1" "OrdId2" "OrdId3" "OrdId4" := by
  rw [getAllOrders_eq, scenario_orders]; rfl

theorem scenario_oneCompanyPerUser : OneCompanyPerUser Examples.scenario "SEC1" := by
  intro o₁ h₁ o₂ h₂ _ _ hu
  rw [scenario_getAllOrders] at h₁ h₂
  simp only [Examples.scenarioOrders, List.mem_cons, List.mem_singleton, List.not_mem_nil,
    or_false] at h₁ h₂
  rcases h₁ with rfl | rfl | rfl | rfl <;> rcases h₂ with rfl | rfl | rfl | rfl <;>
    first | rfl | (exact absurd hu (by decide))

theorem same_company_exclusion_witness :
    OneCompanyPerUser Examples.scenario "SEC1" ∧ SameCompanyExclusion Examples.scenario "SEC1" :=
  ⟨scenario_oneCompanyPerUser,
    (same_company_exclusion Examples.scenario "SEC1").2.2 scenario_oneCompanyPerUser⟩

theorem StdMap.insert_perm {V : Type} (k : String) (v : V) {m : List (String × V)}
    (h : ∀ x ∈ m, x.1 ≠ k) : (StdMap.insert k v m).Perm ((k, v) :: m) := by
  induction m with
  | nil => exact List.Perm.refl _
  | cons a t ih =>
    obtain ⟨ka, va⟩ := a
    have hka : ¬ k = ka := fun e => h (ka, va) (List.mem_cons_self _ _) e.symm
    simp only [StdMap.insert, hka, if_false]
    split_ifs with h1
    · exact List.Perm.refl _
    · exact ((ih (fun x hx => h x (List.mem_cons_of_mem _ hx))).cons (ka, va)).trans
        (List.Perm.swap _ _ _)

/-- Orders added under pairwise distinct identifiers are all stored. -/
theorem perm_foldl_addOrder (os : List Order) (h : (os.map Order.orderId).Nodup) :
    ((os.foldl addOrder OrderCache.empty).orders.map Prod.snd).Perm os := by
  induction os using List.reverseRecOn with
  | nil => exact List.Perm.refl _
  | append_singleton l o ih =>
    rw [List.map_append, List.nodup_append] at h
    obtain ⟨hl, _, hdis⟩ := h
    have ih' := ih hl
    have hv := valid_foldl_addOrder l
    rw [List.foldl_append]
    simp only [List.foldl_cons, List.foldl_nil, addOrder]
    have hfresh : ∀ x ∈ (l.foldl addOrder OrderCache.empty).orders, x.1 ≠ o.orderId := by
      intro x hx hk
      have h1 : x.2 ∈ l := ih'.mem_iff.1 (List.mem_map.2 ⟨x, hx, rfl⟩)
      have h2 : x.2.orderId ∈ l.map Order.orderId := List.mem_map.2 ⟨x.2, h1, rfl⟩
      rw [← hv.2 x hx, hk] at h2
      exact hdis h2 (by simp)
    refine ((StdMap.insert_perm o.orderId o hfresh).map Prod.snd).trans ?_
    simp only [List.map_cons]
    exact (ih'.cons o).trans (List.perm_append_singleton o l).symm

/-- C3: the four orders of the `SEC1` scenario, added under pairwise distinct
order identifiers in any order, give a matching size of 500. -/
theorem scenario_SEC1_matching_size (i₁ i₂ i₃ i₄ : String) (hd : [i₁, i₂, i₃, i₄].Nodup)
    (l : List Order) (hl : l.Perm (Examples.scenarioOrders i₁ i₂ i₃ i₄)) :
    (getMatchingSizeForSecurity (l.foldl addOrder OrderCache.empty) "SEC1").1 = 500 := by
  have hids : (l.map Order.orderId).Nodup := by
    have := (hl.map Order.orderId).nodup_iff
    rw [this]
    simpa [Examples.scenarioOrders] using hd
  have hL := (perm_foldl_addOrder l hids).trans hl
  show (matchOrders (buildBook (l.foldl addOrder OrderCache.empty) "SEC1")).totalQty = 500
  rw [matchOrders_totalQty, buildBook_orderBook, buildBook_orderBook, buildBook_userCompanyMap]
  generalize (l.foldl addOrder OrderCache.empty).orders.map Prod.snd = L at hL
  rw [← List.mem_permutations] at hL
  simp only [Examples.scenarioOrders, List.permutations, List.permutationsAux_cons,
    List.permutationsAux2, List.permutationsAux_nil, List.foldr, List.mem_cons, List.mem_append,
    List.mem_singleton, List.not_mem_nil, or_false, List.append_nil, List.nil_append,
    List.cons_append, id, Function.comp] at hL
  rcases hL with h | h | h | h | h | h | h | h | h | h | h | h | h | h | h | h | h | h | h | h |
    h | h | h | h <;> subst h <;>
    simp +decide [Spec.qtyByUser, Spec.companyByUser, StdMap.find, StdMap.get, StdMap.insert,
      Spec.buyPass, Spec.sellPass, UINT_MOD]

theorem scenario_SEC1_matching_size_witness :
    ["OrdId1", "OrdId2", "OrdId3", "OrdId4"].Nodup ∧
    (Examples.scenarioOrders "OrdId1" "OrdId2" "OrdId3" "OrdId4").Perm
      (Examples.scenarioOrders "OrdId1" "OrdId2" "OrdId3" "OrdId4") ∧
    (getMatchingSizeForSecurity Examples.scenario "SEC1").1 = 500 :=
  ⟨by decide, List.Perm.refl _,
    scenario_SEC1_matching_size "OrdId1" "OrdId2" "OrdId3" "OrdId4" (by decide) _
      (List.Perm.refl _)⟩

theorem scenario_reachable : Reachable Examples.scenario :=
  Reachable.addOrder _ _ (Reachable.addOrder _ _ (Reachable.addOrder _ _
    (Reachable.addOrder _ _ Reachable.empty)))

theorem getMatchingSizeForSecurity_one_sided_witness :
    (∀ o ∈ getAllOrders Examples.buyOnly, o.securityId = "SEC1" → o.side ≠ "Sell") ∧
    (getMatchingSizeForSecurity Examples.buyOnly "SEC1").1 = 0 := by
  have h : ∀ o ∈ getAllOrders Examples.buyOnly, o.securityId = "SEC1" → o.side ≠ "Sell" := by
    intro o ho _
    have : getAllOrders Examples.buyOnly =
        [⟨"OrdId1", "SEC1", "Buy", 100, "UserA", "CompanyX"⟩] := by
      rw [getAllOrders_eq]; rfl
    rw [this, List.mem_singleton] at ho
    subst ho
    decide
  exact ⟨h, getMatchingSizeForSecurity_one_sided Examples.buyOnly "SEC1" (Or.inr h)⟩

theorem cancel_after_add_contributes_nothing_witness :
    Reachable Examples.scenario ∧
    (∀ x ∈ getAllOrders (cancelOrder
        (addOrder Examples.scenario ⟨"OrdId5", "SEC1", "Sell", 700, "UserE", "CompanyW"⟩)
        "OrdId5"), x.orderId ≠ "OrdId5") ∧
    (getMatchingSizeForSecurity (cancelOrder
        (addOrder Examples.scenario ⟨"OrdId5", "SEC1", "Sell", 700, "UserE", "CompanyW"⟩)
        "OrdId5") "SEC1").1 = (getMatchingSizeForSecurity Examples.scenario "SEC1").1 := by
  have h := cancel_after_add_contributes_nothing Examples.scenario scenario_reachable
    ⟨"OrdId5", "SEC1", "Sell", 700, "UserE", "CompanyW"⟩ "SEC1"
  refine ⟨scenario_reachable, h.1, h.2.2 ?_⟩
  intro x hx
  rw [scenario_getAllOrders] at hx
  simp only [Examples.scenarioOrders, List.mem_cons, List.mem_singleton, List.not_mem_nil,
    or_false] at hx
  rcases hx with rfl | rfl | rfl | rfl <;> decide

theorem getAllOrders_ascending_witness :
    Reachable Examples.scenario ∧
    getAllOrders Examples.scenario = Examples.scenario.orders.map Prod.snd ∧
    ((getAllOrders Examples.scenario).map Order.orderId).Pairwise (· < ·) :=
  ⟨scenario_reachable, getAllOrders_ascending Examples.scenario scenario_reachable⟩

/-! ## `cancelOrder` and `addOrder` on a stored mapping -/

theorem StdMap.length_erase {V : Type} {k : String} {v : V} {m : List (String × V)}
    (h : StdMap.find k m = some v) : (StdMap.erase k m).length + 1 = m.length := by
  induction m with
  | nil => simp [StdMap.find] at h
  | cons a t ih =>
    obtain ⟨ka, va⟩ := a
    by_cases hk : k = ka
    · simp [StdMap.erase, hk]
    · simp only [StdMap.find, hk, if_false] at h
      simp [StdMap.erase, hk, ih h]

theorem StdMap.length_insert {V : Type} (k : String) (v : V) {m : List (String × V)}
    (hm : StdMap.Sorted m) :
    (StdMap.insert k v m).length =
      if (StdMap.find k m).isSome then m.length else m.length + 1 := by
  induction m with
  | nil => simp [StdMap.insert, StdMap.find]
  | cons a t ih =>
    obtain ⟨ka, va⟩ := a
    obtain ⟨hlt, ht⟩ := StdMap.sorted_cons.1 hm
    by_cases h1 : k < ka
    · have hnone : StdMap.find k ((ka, va) :: t) = none := by
        rw [StdMap.find_eq_none_iff]
        intro x hx
        rcases List.mem_cons.1 hx with hx | hx
        · subst hx; exact ne_of_gt h1
        · exact ne_of_gt (lt_trans h1 (hlt x hx))
      simp [StdMap.insert, h1, hnone]
    · by_cases h2 : k = ka
      · subst h2; simp [StdMap.insert, StdMap.find]
      · have := ih ht
        simp only [StdMap.insert, h1, h2, if_false, StdMap.find, List.length_cons, this]
        split_ifs <;> rfl

theorem filter_key_eq_filter_id {c : OrderCache} (h : c.Valid) (k : String) :
    (c.orders.filter (fun e => decide (e.1 ≠ k))).map Prod.snd =
      (getAllOrders c).filter (fun o => decide (o.orderId ≠ k)) := by
  rw [getAllOrders_eq, List.filter_map]
  congr 1
  apply List.filter_congr
  intro e he
  simp only [Function.comp]
  rw [h.2 e he]

theorem find_of_mem_getAllOrders {c : OrderCache} (h : c.Valid) {o : Order}
    (ho : o ∈ getAllOrders c) : StdMap.find o.orderId c.orders = some o :=
  (mem_getAllOrders_iff h o).1 ho

theorem find_none_of_no_id {c : OrderCache} (h : c.Valid) {k : String}
    (hk : ∀ o ∈ getAllOrders c, o.orderId ≠ k) : StdMap.find k c.orders = none := by
  rw [StdMap.find_eq_none_iff]
  intro e he
  rw [h.2 e he]
  exact hk e.2 (by rw [getAllOrders_eq]; exact List.mem_map.2 ⟨e, he, rfl⟩)

/-- C11: on a reachable cache `cancelOrder(k)` keeps exactly the orders whose
identifier is not `k`, as they are and in their order; when an order with
identifier `k` is stored the size goes down by one, and when none is the cache
is left as it was. -/
theorem cancelOrder_spec (c : OrderCache) (hc : Reachable c) (k : String) :
    getAllOrders (cancelOrder c k) = (getAllOrders c).filter (fun o => decide (o.orderId ≠ k)) ∧
    ((∃ o ∈ getAllOrders c, o.orderId = k) →
      (getAllOrders (cancelOrder c k)).length + 1 = (getAllOrders c).length) ∧
    ((∀ o ∈ getAllOrders c, o.orderId ≠ k) → cancelOrder c k = c) := by
  have hv := reachable_valid hc
  refine ⟨?_, ?_, ?_⟩
  · rw [← filter_key_eq_filter_id hv k, getAllOrders_eq]
    simp only [cancelOrder]
    rw [StdMap.erase_eq_filter k hv.1]
  · rintro ⟨o, ho, rfl⟩
    rw [getAllOrders_eq, getAllOrders_eq, List.length_map, List.length_map]
    exact StdMap.length_erase (find_of_mem_getAllOrders hv ho)
  · intro hno
    have hnone := find_none_of_no_id hv hno
    have : StdMap.erase k c.orders = c.orders := by
      rw [StdMap.erase_eq_filter k hv.1, List.filter_eq_self]
      intro e he
      simpa using StdMap.find_eq_none_iff.1 hnone e he
    simp only [cancelOrder, this]

theorem cancelOrder_spec_witness :
    Reachable Examples.scenario ∧
    (∃ o ∈ getAllOrders Examples.scenario, o.orderId = "OrdId2") ∧
    (getAllOrders (cancelOrder Examples.scenario "OrdId2")).length + 1 =
      (getAllOrders Examples.scenario).length := by
  have h : ∃ o ∈ getAllOrders Examples.scenario, o.orderId = "OrdId2" := by
    refine ⟨⟨"OrdId2", "SEC1", "Buy", 300, "UserB", "CompanyY"⟩, ?_, rfl⟩
    rw [scenario_getAllOrders]
    simp [Examples.scenarioOrders]
  exact ⟨scenario_reachable, h, (cancelOrder_spec Examples.scenario scenario_reachable "OrdId2").2.1 h⟩

/-- C12: `addOrder(o)` is defined on every cache; on a reachable one the order
stored under `o.orderId` afterwards is `o`, the orders with another identifier
are the same as before and in the same order, and the number of orders grows by
one when the identifier was not stored and stays when it was. -/
theorem addOrder_spec (c : OrderCache) (hc : Reachable c) (o : Order) :
    StdMap.find o.orderId (addOrder c o).orders = some o ∧
    o ∈ getAllOrders (addOrder c o) ∧
    (getAllOrders (addOrder c o)).filter (fun x => decide (x.orderId ≠ o.orderId)) =
      (getAllOrders c).filter (fun x => decide (x.orderId ≠ o.orderId)) ∧
    (∀ k, k ≠ o.orderId → StdMap.find k (addOrder c o).orders = StdMap.find k c.orders) ∧
    ((∀ x ∈ getAllOrders c, x.orderId ≠ o.orderId) →
      (getAllOrders (addOrder c o)).length = (getAllOrders c).length + 1) ∧
    ((∃ x ∈ getAllOrders c, x.orderId = o.orderId) →
      (getAllOrders (addOrder c o)).length = (getAllOrders c).length) := by
  have hv := reachable_valid hc
  have hv' := valid_addOrder o hv
  have hfind : StdMap.find o.orderId (addOrder c o).orders = some o := by
    simp [addOrder, StdMap.find_insert]
  have hlen := StdMap.length_insert o.orderId o hv.1
  refine ⟨hfind, (mem_getAllOrders_iff hv' o).2 hfind, ?_, ?_, ?_, ?_⟩
  · rw [← filter_key_eq_filter_id hv' o.orderId, ← filter_key_eq_filter_id hv o.orderId]
    simp only [addOrder]
    rw [StdMap.filter_insert _ _ hv.1]
  · intro k hk
    simp [addOrder, StdMap.find_insert, hk]
  · intro hno
    rw [find_none_of_no_id hv hno] at hlen
    rw [getAllOrders_eq, getAllOrders_eq, List.length_map, List.length_map]
    simpa [addOrder] using hlen
  · rintro ⟨x, hx, hid⟩
    have := find_of_mem_getAllOrders hv hx
    rw [hid] at this
    rw [this] at hlen
    rw [getAllOrders_eq, getAllOrders_eq, List.length_map, List.length_map]
    simpa [addOrder] using hlen

theorem addOrder_spec_witness :
    Reachable Examples.scenario ∧
    (∀ x ∈ getAllOrders Examples.scenario, x.orderId ≠ "OrdId5") ∧
    (getAllOrders (addOrder Examples.scenario
      ⟨"OrdId5", "SEC1", "Sell", 700, "UserE", "CompanyW"⟩)).length =
      (getAllOrders Examples.scenario).length + 1 := by
  have h : ∀ x ∈ getAllOrders Examples.scenario, x.orderId ≠ "OrdId5" := by
    intro x hx
    rw [scenario_getAllOrders] at hx
    simp only [Examples.scenarioOrders, List.mem_cons, List.mem_singleton, List.not_mem_nil,
      or_false] at hx
    rcases hx with rfl | rfl | rfl | rfl <;> decide
  exact ⟨scenario_reachable, h,
    (addOrder_spec Examples.scenario scenario_reachable
      ⟨"OrdId5", "SEC1", "Sell", 700, "UserE", "CompanyW"⟩).2.2.2.2.1 h⟩

/-! ## The company recorded for a user -/

/-- On a stored mapping, the company recorded for a user is the one of the
user's order for the security with the greatest identifier. -/
theorem company_of_greatest_id {c : OrderCache} (hv : c.Valid) (s u : String) (o : Order)
    (ho : o ∈ getAllOrders c) (hs : o.securityId = s) (hu : o.user = u)
    (hmax : ∀ x ∈ getAllOrders c, x.securityId = s → x.user = u → x.orderId ≤ o.orderId) :
    StdMap.get "" u (buildBook c s).userCompanyMap = o.company := by
  have hsorted := ids_sorted hv
  rw [buildBook_userCompanyMap]
  unfold StdMap.get
  rw [Spec.find_companyByUser, ← getAllOrders_eq]
  cases hf : (getAllOrders c).reverse.find?
      (fun x => decide (x.securityId = s ∧ x.user = u)) with
  | none =>
    have := List.find?_eq_none.1 hf o (List.mem_reverse.2 ho)
    simp [hs, hu] at this
  | some o' =>
    obtain ⟨hp, as, bs, hsplit, hnot⟩ := List.find?_eq_some.1 hf
    simp only [decide_eq_true_eq] at hp
    have hL : getAllOrders c = bs.reverse ++ o' :: as.reverse := by
      have := congrArg List.reverse hsplit
      simpa using this
    have ho' : o' ∈ getAllOrders c := by rw [hL]; simp
    have hle := hmax o' ho' hp.1 hp.2
    rw [hL] at ho hsorted
    simp only [Option.map_some', Option.getD_some]
    rcases List.mem_append.1 ho with hmem | hmem
    · rw [List.map_append, List.pairwise_append] at hsorted
      have hlt := hsorted.2.2 o.orderId (List.mem_map.2 ⟨o, hmem, rfl⟩) o'.orderId
        (List.mem_map.2 ⟨o', List.mem_cons_self _ _, rfl⟩)
      exact absurd hle (not_le.2 hlt)
    · rcases List.mem_cons.1 hmem with heq | hmem
      · rw [heq]
      · have := hnot o (List.mem_reverse.1 hmem)
        simp [hs, hu] at this

/-- C15: on a reachable cache, the company `getMatchingSizeForSecurity` looks
up for a user in the same-company check is the company of that user's stored
order for the security with the greatest order identifier. -/
theorem last_seen_company_wins (c : OrderCache) (hc : Reachable c) (s u : String) (o : Order)
    (ho : o ∈ getAllOrders c) (hs : o.securityId = s) (hu : o.user = u)
    (hmax : ∀ x ∈ getAllOrders c, x.securityId = s → x.user = u → x.orderId ≤ o.orderId) :
    StdMap.get "" u (buildBook c s).userCompanyMap = o.company :=
  company_of_greatest_id (reachable_valid hc) s u o ho hs hu hmax

/-! ## The pairing pass when every pair, or no pair, may match -/

theorem Spec.qtySum_qtyByUser (side s : String) (l : List Order) :
    qtySum (Spec.qtyByUser side s l) =
      ((l.filter (fun o => decide (o.securityId = s ∧ o.side = side))).map Order.qty).sum := by
  induction l using List.reverseRecOn with
  | nil => rfl
  | append_singleton l o ih =>
    rw [Spec.qtyByUser_append, List.filter_append, List.map_append, List.sum_append, ← ih]
    by_cases h : o.securityId = s ∧ o.side = side
    · rw [if_pos h, qtySum_insert_add (Spec.qtyByUser_sorted _ _ _)]
      simp [h]
    · rw [if_neg h]
      simp [h]

theorem qtySum_sideQty (c : OrderCache) (s side : String) :
    qtySum (Spec.qtyByUser side s (c.orders.map Prod.snd)) = sideQtyForSecurity c s side := by
  rw [Spec.qtySum_qtyByUser, sideQtyForSecurity, getAllOrders_eq]

/-- Every user of a side's map has an order of that side for the security. -/
theorem Spec.mem_qtyByUser {side s : String} {l : List Order} {e : String × Nat}
    (he : e ∈ Spec.qtyByUser side s l) :
    ∃ o ∈ l, o.securityId = s ∧ o.side = side ∧ o.user = e.1 := by
  induction l using List.reverseRecOn with
  | nil => simp [Spec.qtyByUser] at he
  | append_singleton l o ih =>
    rw [Spec.qtyByUser_append] at he
    split_ifs at he with h
    · rcases StdMap.mem_of_mem_insert he with he | he
      · exact ⟨o, by simp, h.1, h.2, by rw [he]⟩
      · obtain ⟨x, hx, hx'⟩ := ih he
        exact ⟨x, List.mem_append_left _ hx, hx'⟩
    · obtain ⟨x, hx, hx'⟩ := ih he
      exact ⟨x, List.mem_append_left _ hx, hx'⟩

theorem Spec.sellPass_cons_keep (company : String → String) (bu su : String) (sq : Nat)
    (rest : QtyMap) (b t : Nat) (hb : b ≠ 0) (h : sq = 0 ∨ company bu = company su) :
    Spec.sellPass company bu ((su, sq) :: rest) b t =
      ((su, sq) :: (Spec.sellPass company bu rest b t).1,
        (Spec.sellPass company bu rest b t).2) := by
  rw [Spec.sellPass]
  by_cases hq : sq = 0
  · simp [hb, hq]
  · rcases h with h | h
    · exact absurd h hq
    · simp [hb, hq, h]

theorem Spec.sellPass_cons_diff (company : String → String) (bu su : String) (sq : Nat)
    (rest : QtyMap) (b t : Nat) (hb : b ≠ 0) (hq : sq ≠ 0) (hc : company bu ≠ company su) :
    Spec.sellPass company bu ((su, sq) :: rest) b t =
      (if sq - min b sq = 0 then
          (Spec.sellPass company bu rest (b - min b sq) (t + min b sq)).1
        else (su, sq - min b sq) ::
          (Spec.sellPass company bu rest (b - min b sq) (t + min b sq)).1,
        (Spec.sellPass company bu rest (b - min b sq) (t + min b sq)).2) := by
  rw [Spec.sellPass]; simp only [hb, hq, hc, if_false]

theorem Spec.sellPass_keys (company : String → String) (bu : String) (S : QtyMap) (b t : Nat) :
    ∀ e ∈ (Spec.sellPass company bu S b t).1, e.1 ∈ S.map Prod.fst := by
  induction S generalizing b t with
  | nil => intro e he; simp [Spec.sellPass] at he
  | cons a rest ih =>
    obtain ⟨su, sq⟩ := a
    intro e he
    simp only [List.map_cons, List.mem_cons]
    by_cases hb : b = 0
    · subst hb
      rw [Spec.sellPass_zero] at he
      rcases List.mem_cons.1 he with he | he
      · left; rw [he]
      · right; exact List.mem_map.2 ⟨e, he, rfl⟩
    · by_cases hk : sq = 0 ∨ company bu = company su
      · rw [Spec.sellPass_cons_keep company bu su sq rest b t hb hk] at he
        rcases List.mem_cons.1 he with he | he
        · left; rw [he]
        · right; exact ih _ _ e he
      · rw [not_or] at hk
        rw [Spec.sellPass_cons_diff company bu su sq rest b t hb hk.1 hk.2] at he
        simp only at he
        split_ifs at he with hz
        · right; exact ih _ _ e he
        · rcases List.mem_cons.1 he with he | he
          · left; rw [he]
          · right; exact ih _ _ e he

theorem Spec.sellPass_all_same (company : String → String) (bu : String) (S : QtyMap)
    (b t : Nat) (h : ∀ e ∈ S, company bu = company e.1) :
    Spec.sellPass company bu S b t = (S, b, t) := by
  induction S generalizing b t with
  | nil => rfl
  | cons a rest ih =>
    obtain ⟨su, sq⟩ := a
    have hsu : company bu = company su := h (su, sq) (List.mem_cons_self _ _)
    have ih' := ih b t (fun e he => h e (List.mem_cons_of_mem _ he))
    by_cases hb : b = 0
    · subst hb; exact Spec.sellPass_zero _ _ _ _
    · rw [Spec.sellPass_cons_keep company bu su sq rest b t hb (Or.inr hsu), ih']

/-- When no buy user may match any sell user, nothing is matched. -/
theorem Spec.buyPass_all_same (company : String → String) (B S : QtyMap) (t : Nat)
    (h : ∀ x ∈ B, ∀ e ∈ S, company x.1 = company e.1) :
    Spec.buyPass company B S t = t := by
  induction B generalizing t with
  | nil => rfl
  | cons a rest ih =>
    obtain ⟨bu, b⟩ := a
    rw [Spec.buyPass_cons, Spec.sellPass_all_same company bu S b t
      (fun e he => h (bu, b) (List.mem_cons_self _ _) e he)]
    exact ih t (fun x hx => h x (List.mem_cons_of_mem _ hx))

theorem Spec.sellPass_all_diff (company : String → String) (bu : String) (S : QtyMap)
    (b t : Nat) (h : ∀ e ∈ S, company bu ≠ company e.1) :
    (Spec.sellPass company bu S b t).2.2 = t + min b (qtySum S) ∧
    qtySum (Spec.sellPass company bu S b t).1 = qtySum S - min b (qtySum S) := by
  induction S generalizing b t with
  | nil => simp [Spec.sellPass, qtySum]
  | cons a rest ih =>
    obtain ⟨su, sq⟩ := a
    have hsu : company bu ≠ company su := h (su, sq) (List.mem_cons_self _ _)
    have hrest : ∀ e ∈ rest, company bu ≠ company e.1 :=
      fun e he => h e (List.mem_cons_of_mem _ he)
    by_cases hb : b = 0
    · subst hb; rw [Spec.sellPass_zero]; simp
    · by_cases hq : sq = 0
      · subst hq
        rw [Spec.sellPass_cons_keep company bu su 0 rest b t hb (Or.inl rfl)]
        obtain ⟨i1, i2⟩ := ih b t hrest
        simp only [qtySum, List.map_cons, List.sum_cons] at i1 i2 ⊢
        rw [i1, i2]
        simp
      · rw [Spec.sellPass_cons_diff company bu su sq rest b t hb hq hsu]
        obtain ⟨i1, i2⟩ := ih (b - min b sq) (t + min b sq) hrest
        simp only [qtySum, List.map_cons, List.sum_cons] at i1 i2 ⊢
        rw [i1]
        constructor
        · rcases le_total b sq with hle | hle
          · rw [min_eq_left hle]
            simp only [Nat.sub_self, Nat.zero_min]
            rw [min_eq_left (by omega)]
            omega
          · rw [min_eq_right hle]
            omega
        · have : (List.map Prod.snd
              (if sq - min b sq = 0 then
                (Spec.sellPass company bu rest (b - min b sq) (t + min b sq)).1
              else (su, sq - min b sq) ::
                (Spec.sellPass company bu rest (b - min b sq) (t + min b sq)).1)).sum =
              (sq - min b sq) + (List.map Prod.snd
                (Spec.sellPass company bu rest (b - min b sq) (t + min b sq)).1).sum := by
            split_ifs with hz
            · rw [hz]; simp
            · simp
          rw [this, i2]
          omega

/-- When every buy user may match every sell user, the pass matches all that
can be matched. -/
theorem Spec.buyPass_all_diff (company : String → String) (B S : QtyMap) (t : Nat)
    (h : ∀ x ∈ B, ∀ k ∈ S.map Prod.fst, company x.1 ≠ company k) :
    Spec.buyPass company B S t = t + min (qtySum B) (qtySum S) := by
  induction B generalizing S t with
  | nil => simp [Spec.buyPass, qtySum]
  | cons a rest ih =>
    obtain ⟨bu, b⟩ := a
    rw [Spec.buyPass_cons]
    have hS : ∀ e ∈ S, company bu ≠ company e.1 :=
      fun e he => h (bu, b) (List.mem_cons_self _ _) e.1 (List.mem_map.2 ⟨e, he, rfl⟩)
    obtain ⟨h1, h2⟩ := Spec.sellPass_all_diff company bu S b t hS
    rw [ih _ _ (fun x hx k hk => h x (List.mem_cons_of_mem _ hx) k (by
      obtain ⟨e, he, rfl⟩ := List.mem_map.1 hk
      exact Spec.sellPass_keys company bu S b t e he)), h1, h2]
    simp only [qtySum, List.map_cons, List.sum_cons]
    omega

/-! ## Closed forms of the returned total -/

/-- Every user of a map the code aggregated has a stored order of that side for
the security. -/
theorem mem_orderBook {c : OrderCache} {s side : String} {e : String × Nat}
    (he : e ∈ StdMap.get [] side (buildBook c s).orderBook) :
    ∃ o ∈ getAllOrders c, o.securityId = s ∧ o.side = side ∧ o.user = e.1 := by
  rw [buildBook_orderBook] at he
  obtain ⟨x, hx, rfl⟩ := List.mem_map.1 he
  rw [getAllOrders_eq]
  exact Spec.mem_qtyByUser (e := x) hx

theorem sorted_one_key {m : QtyMap} (hm : StdMap.Sorted m) {u : String}
    (h : ∀ e ∈ m, e.1 = u) : m = [] ∨ ∃ v, m = [(u, v)] := by
  cases m with
  | nil => exact Or.inl rfl
  | cons a t =>
    right
    obtain ⟨ka, va⟩ := a
    have hka : ka = u := h (ka, va) (List.mem_cons_self _ _)
    subst hka
    cases t with
    | nil => exact ⟨va, rfl⟩
    | cons b t' =>
      obtain ⟨hlt, _⟩ := StdMap.sorted_cons.1 hm
      have h1 := hlt b (List.mem_cons_self _ _)
      have h2 : b.1 = ka := h b (List.mem_cons_of_mem _ (List.mem_cons_self _ _))
      rw [h2] at h1
      exact absurd h1 (lt_irrefl _)

/-- The map the code keeps for a side whose orders all belong to one user holds
at most that user, with the side's quantity modulo `2 ^ 32`. -/
theorem qtySum_orderBook_one_user (c : OrderCache) (s side u : String)
    (h : ∀ o ∈ getAllOrders c, o.securityId = s → o.side = side → o.user = u) :
    qtySum (StdMap.get [] side (buildBook c s).orderBook) =
      sideQtyForSecurity c s side % UINT_MOD := by
  rw [buildBook_orderBook, ← qtySum_sideQty]
  have hkeys : ∀ e ∈ Spec.qtyByUser side s (c.orders.map Prod.snd), e.1 = u := by
    intro e he
    obtain ⟨o, ho, h1, h2, h3⟩ := Spec.mem_qtyByUser he
    rw [← h3]
    exact h o (by rw [getAllOrders_eq]; exact ho) h1 h2
  rcases sorted_one_key (Spec.qtyByUser_sorted side s _) hkeys with h0 | ⟨v, hv⟩
  · rw [h0]; rfl
  · rw [hv]; simp [qtySum]

/-- C20: when all the stored orders for the security belong to one user,
`getMatchingSizeForSecurity` returns 0, whatever their sides, quantities and
companies. -/
theorem single_user_never_matches (c : OrderCache) (s u : String)
    (h : ∀ o ∈ getAllOrders c, o.securityId = s → o.user = u) :
    (getMatchingSizeForSecurity c s).1 = 0 := by
  show (matchOrders (buildBook c s)).totalQty = 0
  rw [matchOrders_totalQty, Spec.buyPass_all_same]
  · rfl
  · intro x hx e he
    obtain ⟨o₁, ho₁, hs₁, _, hu₁⟩ := mem_orderBook hx
    obtain ⟨o₂, ho₂, hs₂, _, hu₂⟩ := mem_orderBook he
    rw [← hu₁, ← hu₂, h o₁ ho₁ hs₁, h o₂ ho₂ hs₂]

/-- C18: when each user's orders for the security carry one company, no `Buy`
order for it shares its company with a `Sell` order for it, and the quantities
stored for it sum to less than `2 ^ 32`, `getMatchingSizeForSecurity` returns
the smaller of the total `Buy` and the total `Sell` quantity. -/
theorem no_exclusion_matches_everything (c : OrderCache) (s : String)
    (h₁ : OneCompanyPerUser c s)
    (h₂ : ∀ ob ∈ getAllOrders c, ∀ os ∈ getAllOrders c,
      ob.securityId = s → ob.side = "Buy" → os.securityId = s → os.side = "Sell" →
      ob.company ≠ os.company)
    (h₃ : totalQtyForSecurity c s < UINT_MOD) :
    (getMatchingSizeForSecurity c s).1 =
      min (sideQtyForSecurity c s "Buy") (sideQtyForSecurity c s "Sell") := by
  show (matchOrders (buildBook c s)).totalQty = _
  have hb := Spec.qtySum_qtyByUser_le "Buy" s c
  have hs := Spec.qtySum_qtyByUser_le "Sell" s c
  rw [matchOrders_totalQty, Spec.buyPass_all_diff]
  · rw [buildBook_orderBook, buildBook_orderBook, map_mod_eq_self (lt_of_le_of_lt hb h₃),
      map_mod_eq_self (lt_of_le_of_lt hs h₃), Nat.zero_add, Nat.mod_eq_of_lt,
      qtySum_sideQty, qtySum_sideQty]
    exact lt_of_le_of_lt (Nat.min_le_left _ _) (lt_of_le_of_lt hb h₃)
  · intro x hx k hk
    obtain ⟨e, he, rfl⟩ := List.mem_map.1 hk
    obtain ⟨o₁, ho₁, hs₁, hd₁, hu₁⟩ := mem_orderBook hx
    obtain ⟨o₂, ho₂, hs₂, hd₂, hu₂⟩ := mem_orderBook he
    rw [← hu₁, ← hu₂, company_of_order h₁ ho₁ hs₁, company_of_order h₁ ho₂ hs₂]
    exact h₂ o₁ ho₁ o₂ ho₂ hs₁ hd₁ hs₂ hd₂

/-- C19: when the `Buy` orders for the security all belong to one user, the
`Sell` orders to one user, and the two users are recorded with different
companies, `getMatchingSizeForSecurity` returns the smaller of the total `Buy`
quantity modulo `2 ^ 32` and the total `Sell` quantity modulo `2 ^ 32`. -/
theorem one_buyer_one_seller_wraps (c : OrderCache) (s u₁ u₂ : String)
    (hB : ∀ o ∈ getAllOrders c, o.securityId = s → o.side = "Buy" → o.user = u₁)
    (hS : ∀ o ∈ getAllOrders c, o.securityId = s → o.side = "Sell" → o.user = u₂)
    (hc : StdMap.get "" u₁ (buildBook c s).userCompanyMap ≠
      StdMap.get "" u₂ (buildBook c s).userCompanyMap) :
    (getMatchingSizeForSecurity c s).1 =
      min (sideQtyForSecurity c s "Buy" % UINT_MOD) (sideQtyForSecurity c s "Sell" % UINT_MOD) := by
  show (matchOrders (buildBook c s)).totalQty = _
  rw [matchOrders_totalQty, Spec.buyPass_all_diff]
  · rw [qtySum_orderBook_one_user c s "Buy" u₁ hB, qtySum_orderBook_one_user c s "Sell" u₂ hS,
      Nat.zero_add, Nat.mod_eq_of_lt]
    exact lt_of_le_of_lt (Nat.min_le_left _ _) (Nat.mod_lt _ (by decide))
  · intro x hx k hk
    obtain ⟨e, he, rfl⟩ := List.mem_map.1 hk
    obtain ⟨o₁, ho₁, hs₁, hd₁, hu₁⟩ := mem_orderBook hx
    obtain ⟨o₂, ho₂, hs₂, hd₂, hu₂⟩ := mem_orderBook he
    rw [← hu₁, ← hu₂, hB o₁ ho₁ hs₁ hd₁, hS o₂ ho₂ hs₂ hd₂]
    exact hc

/-! ## Bounds on the returned total and conservation of the quantities -/

theorem Spec.sellPass_conserve_sells (company : String → String) (bu : String) (S : QtyMap)
    (b t : Nat) :
    (Spec.sellPass company bu S b t).2.2 + qtySum (Spec.sellPass company bu S b t).1 =
      t + qtySum S := by
  induction S generalizing b t with
  | nil => rfl
  | cons a rest ih =>
    obtain ⟨su, sq⟩ := a
    by_cases hb : b = 0
    · subst hb; rw [Spec.sellPass_zero]
    · by_cases hk : sq = 0 ∨ company bu = company su
      · rw [Spec.sellPass_cons_keep company bu su sq rest b t hb hk]
        have := ih b t
        simp only [qtySum, List.map_cons, List.sum_cons] at this ⊢
        omega
      · rw [not_or] at hk
        rw [Spec.sellPass_cons_diff company bu su sq rest b t hb hk.1 hk.2]
        have := ih (b - min b sq) (t + min b sq)
        simp only [qtySum, List.map_cons, List.sum_cons] at this ⊢
        split_ifs with hz
        · omega
        · simp only [List.map_cons, List.sum_cons]
          omega

theorem Spec.buyPass_le_sells (company : String → String) (B S : QtyMap) (t : Nat) :
    Spec.buyPass company B S t ≤ t + qtySum S := by
  induction B generalizing S t with
  | nil => simp [Spec.buyPass]
  | cons a rest ih =>
    obtain ⟨bu, b⟩ := a
    rw [Spec.buyPass_cons]
    have h1 := ih (Spec.sellPass company bu S b t).1 (Spec.sellPass company bu S b t).2.2
    have h2 := Spec.sellPass_conserve_sells company bu S b t
    omega

theorem qtySum_map_mod_le (m : QtyMap) :
    qtySum (m.map (fun e => (e.1, e.2 % UINT_MOD))) ≤ qtySum m := by
  induction m with
  | nil => exact Nat.le_refl _
  | cons a t ih =>
    simp only [qtySum, List.map_cons, List.sum_cons] at ih ⊢
    have := Nat.mod_le a.2 UINT_MOD
    omega

theorem qtySum_nonzero (X : QtyMap) : qtySum (nonzero X) = qtySum X := by
  induction X with
  | nil => rfl
  | cons a t ih =>
    obtain ⟨k, v⟩ := a
    by_cases hv : v = 0
    · subst hv
      simp only [nonzero, qtySum] at ih ⊢
      simpa using ih
    · simp only [nonzero, qtySum] at ih ⊢
      rw [List.filter_cons_of_pos (by simpa using hv)]
      simp only [List.map_cons, List.sum_cons, ih]

/-- The inner loop neither loses nor creates quantity: what the buy user and
the sell users have left, plus what was matched, is what they had. -/
theorem sellLoop_conserve (ucm : List (String × String)) (bu : String) (S : QtyMap)
    (b t : Nat) :
    (sellLoop ucm bu S b t).buyOrderQty + ((sellLoop ucm bu S b t).matched.map Match.qty).sum =
      b ∧
    qtySum (sellLoop ucm bu S b t).sellOrders +
      ((sellLoop ucm bu S b t).matched.map Match.qty).sum = qtySum S := by
  induction S generalizing b t with
  | nil => simp [sellLoop, qtySum]
  | cons a rest ih =>
    obtain ⟨su, sq⟩ := a
    by_cases h : StdMap.get "" bu ucm = StdMap.get "" su ucm
    · rw [sellLoop_skip h]
      obtain ⟨h1, h2⟩ := ih b t
      simp only [qtySum, List.map_cons, List.sum_cons] at h2 ⊢
      exact ⟨h1, by omega⟩
    · rw [sellLoop_match h]
      obtain ⟨h1, h2⟩ := ih (b - min b sq) ((t + min b sq) % UINT_MOD)
      simp only [qtySum, List.map_cons, List.sum_cons] at h2 ⊢
      constructor <;> omega

theorem buyLoop_keys (ucm : List (String × String)) (B S : QtyMap) (t : Nat) :
    (buyLoop ucm B S t).buyOrders.map Prod.fst = B.map Prod.fst := by
  induction B generalizing S t with
  | nil => rfl
  | cons a rest ih =>
    obtain ⟨bu, b⟩ := a
    rw [buyLoop]
    simp [ih]

/-- Every buy user marked for removal is left with quantity zero. -/
theorem buyLoop_toRemove (ucm : List (String × String)) (B S : QtyMap) (t : Nat) :
    ∀ k ∈ (buyLoop ucm B S t).buyOrdersToRemove, (k, 0) ∈ (buyLoop ucm B S t).buyOrders := by
  induction B generalizing S t with
  | nil => intro k hk; simp [buyLoop] at hk
  | cons a rest ih =>
    obtain ⟨bu, b⟩ := a
    intro k hk
    rw [buyLoop] at hk ⊢
    simp only at hk ⊢
    by_cases h0 : (sellLoop ucm bu S b t).buyOrderQty = 0
    · rw [if_pos h0] at hk
      rcases List.mem_cons.1 hk with hk | hk
      · subst hk; rw [h0]; exact List.mem_cons_self _ _
      · exact List.mem_cons_of_mem _ (ih _ _ k hk)
    · rw [if_neg h0] at hk
      exact List.mem_cons_of_mem _ (ih _ _ k hk)

/-- The outer loop neither loses nor creates quantity on either side. -/
theorem buyLoop_conserve (ucm : List (String × String)) (B S : QtyMap) (t : Nat)
    (hS : StdMap.Sorted S) :
    qtySum (buyLoop ucm B S t).buyOrders + ((buyLoop ucm B S t).matched.map Match.qty).sum =
      qtySum B ∧
    qtySum (buyLoop ucm B S t).sellOrders + ((buyLoop ucm B S t).matched.map Match.qty).sum =
      qtySum S := by
  induction B generalizing S t with
  | nil => simp [buyLoop, qtySum]
  | cons a rest ih =>
    obtain ⟨bu, b⟩ := a
    obtain ⟨h1, h2⟩ := sellLoop_conserve ucm bu S b t
    obtain ⟨h3, h4⟩ := nonzero_after_sellLoop ucm bu b t hS
    obtain ⟨h5, h6⟩ := ih (eraseAll (sellLoop ucm bu S b t).sellOrdersToRemove
      (sellLoop ucm bu S b t).sellOrders) (sellLoop ucm bu S b t).totalQty h4
    have h7 := congrArg qtySum h3
    rw [qtySum_nonzero, qtySum_nonzero] at h7
    rw [buyLoop]
    simp only [qtySum, List.map_cons, List.sum_cons, List.map_append, List.sum_append]
      at h2 h5 h6 h7 ⊢
    constructor <;> omega

/-- The whole matching part neither loses nor creates quantity: the quantities
left in the two working maps, plus the quantities matched, are the aggregated
quantities. No subtraction of the pairing loops took away more than was there. -/
theorem matchOrders_conserve (c : OrderCache) (s : String) :
    qtySum (matchOrders (buildBook c s)).buyOrders +
        ((matchOrders (buildBook c s)).matched.map Match.qty).sum =
      qtySum (StdMap.get [] "Buy" (buildBook c s).orderBook) ∧
    qtySum (matchOrders (buildBook c s)).sellOrders +
        ((matchOrders (buildBook c s)).matched.map Match.qty).sum =
      qtySum (StdMap.get [] "Sell" (buildBook c s).orderBook) := by
  have hsS : StdMap.Sorted (StdMap.get [] "Sell" (buildBook c s).orderBook) := by
    rw [buildBook_orderBook]
    exact StdMap.sorted_map (fun x => x % UINT_MOD) (Spec.qtyByUser_sorted _ _ _)
  have hsB : StdMap.Sorted (StdMap.get [] "Buy" (buildBook c s).orderBook) := by
    rw [buildBook_orderBook]
    exact StdMap.sorted_map (fun x => x % UINT_MOD) (Spec.qtyByUser_sorted _ _ _)
  unfold matchOrders
  split_ifs with h
  · obtain ⟨h1, h2⟩ := buyLoop_conserve (buildBook c s).userCompanyMap
      (StdMap.get [] "Buy" (buildBook c s).orderBook)
      (StdMap.get [] "Sell" (buildBook c s).orderBook) 0 hsS
    refine ⟨?_, h2⟩
    have hsorted : StdMap.Sorted (buyLoop (buildBook c s).userCompanyMap
        (StdMap.get [] "Buy" (buildBook c s).orderBook)
        (StdMap.get [] "Sell" (buildBook c s).orderBook) 0).buyOrders := by
      have hk := buyLoop_keys (buildBook c s).userCompanyMap
        (StdMap.get [] "Buy" (buildBook c s).orderBook)
        (StdMap.get [] "Sell" (buildBook c s).orderBook) 0
      unfold StdMap.Sorted at hsB ⊢
      rw [← List.pairwise_map (f := Prod.fst)] at hsB ⊢
      rw [hk]; exact hsB
    have hz := (nonzero_eraseAll _ hsorted (fun k hk v hv =>
      sorted_unique hsorted hv (buyLoop_toRemove _ _ _ _ k hk))).1
    have := congrArg qtySum hz
    rw [qtySum_nonzero, qtySum_nonzero] at this
    simp only
    rw [this]
    exact h1
  · have hnone : StdMap.find "Buy" (buildBook c s).orderBook = none := by
      cases hf : StdMap.find "Buy" (buildBook c s).orderBook with
      | none => rfl
      | some x => rw [hf] at h; simp at h
    have : StdMap.get [] "Buy" (buildBook c s).orderBook = [] := by
      unfold StdMap.get; rw [hnone]; rfl
    rw [this]
    simp [qtySum]

theorem orderBook_qtySum_le (c : OrderCache) (s side : String) :
    qtySum (StdMap.get [] side (buildBook c s).orderBook) ≤ sideQtyForSecurity c s side := by
  rw [buildBook_orderBook, ← qtySum_sideQty]
  exact qtySum_map_mod_le _

/-- C17: `getMatchingSizeForSecurity` returns at most the smaller of the total
`Buy` and the total `Sell` quantity stored for the security (with or without
the bound of `2 ^ 32` on their sum), and the pairing never takes away more than
a remaining quantity: on both sides, what is left plus what was matched is what
was aggregated. -/
theorem matching_size_le_min_side (c : OrderCache) (s : String) :
    (getMatchingSizeForSecurity c s).1 ≤
      min (sideQtyForSecurity c s "Buy") (sideQtyForSecurity c s "Sell") ∧
    qtySum (matchOrders (buildBook c s)).buyOrders +
        ((matchOrders (buildBook c s)).matched.map Match.qty).sum =
      qtySum (StdMap.get [] "Buy" (buildBook c s).orderBook) ∧
    qtySum (matchOrders (buildBook c s)).sellOrders +
        ((matchOrders (buildBook c s)).matched.map Match.qty).sum =
      qtySum (StdMap.get [] "Sell" (buildBook c s).orderBook) := by
  refine ⟨?_, matchOrders_conserve c s⟩
  show (matchOrders (buildBook c s)).totalQty ≤ _
  rw [matchOrders_totalQty]
  have h1 := Spec.buyPass_le (fun u => StdMap.get "" u (buildBook c s).userCompanyMap)
    (StdMap.get [] "Buy" (buildBook c s).orderBook)
    (StdMap.get [] "Sell" (buildBook c s).orderBook) 0
  have h2 := Spec.buyPass_le_sells (fun u => StdMap.get "" u (buildBook c s).userCompanyMap)
    (StdMap.get [] "Buy" (buildBook c s).orderBook)
    (StdMap.get [] "Sell" (buildBook c s).orderBook) 0
  have h3 := orderBook_qtySum_le c s "Buy"
  have h4 := orderBook_qtySum_le c s "Sell"
  have h5 := Nat.mod_le (Spec.buyPass (fun u => StdMap.get "" u (buildBook c s).userCompanyMap)
    (StdMap.get [] "Buy" (buildBook c s).orderBook)
    (StdMap.get [] "Sell" (buildBook c s).orderBook) 0) UINT_MOD
  exact le_min (by omega) (by omega)

/-! ## The greedy pairing against a better assignment -/

theorem greedy_orders : Examples.greedy.orders =
    [("OrdId1", ⟨"OrdId1", "SEC1", "Buy", 10, "UserA", "CompanyX"⟩),
     ("OrdId2", ⟨"OrdId2", "SEC1", "Buy", 10, "UserB", "CompanyY"⟩),
     ("OrdId3", ⟨"OrdId3", "SEC1", "Sell", 10, "UserC", "CompanyZ"⟩),
     ("OrdId4", ⟨"OrdId4", "SEC1", "Sell", 10, "UserD", "CompanyY"⟩)] := by
  simp +decide [Examples.greedy, addOrder, OrderCache.empty, StdMap.insert]

theorem greedy_getAllOrders : getAllOrders Examples.greedy =
    [⟨"OrdId1", "SEC1", "Buy", 10, "UserA", "CompanyX"⟩,
     ⟨"OrdId2", "SEC1", "Buy", 10, "UserB", "CompanyY"⟩,
     ⟨"OrdId3", "SEC1", "Sell", 10, "UserC", "CompanyZ"⟩,
     ⟨"OrdId4", "SEC1", "Sell", 10, "UserD", "CompanyY"⟩] := by
  rw [getAllOrders_eq, greedy_orders]; rfl

theorem greedy_reachable : Reachable Examples.greedy :=
  Reachable.addOrder _ _ (Reachable.addOrder _ _ (Reachable.addOrder _ _
    (Reachable.addOrder _ _ Reachable.empty)))

theorem greedy_oneCompanyPerUser : OneCompanyPerUser Examples.greedy "SEC1" := by
  intro o₁ h₁ o₂ h₂ _ _ hu
  rw [greedy_getAllOrders] at h₁ h₂
  simp only [List.mem_cons, List.mem_singleton, List.not_mem_nil, or_false] at h₁ h₂
  rcases h₁ with rfl | rfl | rfl | rfl <;> rcases h₂ with rfl | rfl | rfl | rfl <;>
    first | rfl | (exact absurd hu (by decide))

theorem greedy_feasible :
    Feasible Examples.greedy "SEC1" [⟨"UserA", "UserD", 10⟩, ⟨"UserB", "UserC", 10⟩] := by
  refine ⟨?_, ?_, ?_⟩
  · intro m hm ob hob os hos
    rw [greedy_getAllOrders] at hob hos
    simp only [List.mem_cons, List.mem_singleton, List.not_mem_nil, or_false] at hm hob hos
    rcases hm with rfl | rfl <;> rcases hob with rfl | rfl | rfl | rfl <;>
      rcases hos with rfl | rfl | rfl | rfl <;> decide
  · intro u
    unfold userSideQty
    rw [greedy_getAllOrders]
    by_cases h1 : u = "UserA"
    · subst h1; decide
    · by_cases h2 : u = "UserB"
      · subst h2; decide
      · have h1' : ¬ "UserA" = u := fun e => h1 e.symm
        have h2' : ¬ "UserB" = u := fun e => h2 e.symm
        simp [List.filter_cons, h1', h2']
  · intro u
    unfold userSideQty
    rw [greedy_getAllOrders]
    by_cases h1 : u = "UserD"
    · subst h1; decide
    · by_cases h2 : u = "UserC"
      · subst h2; decide
      · have h1' : ¬ "UserD" = u := fun e => h1 e.symm
        have h2' : ¬ "UserC" = u := fun e => h2 e.symm
        simp [List.filter_cons, h1', h2']

/-- C16: the greedy pairing is not optimal. For `Buy` UserA (CompanyX, 10),
`Buy` UserB (CompanyY, 10), `Sell` UserC (CompanyZ, 10), `Sell` UserD
(CompanyY, 10), every user with one company and no overflow,
`getMatchingSizeForSecurity` returns 10, while matching UserA with UserD and
UserB with UserC pairs only different companies, stays within every user's
quantity and totals 20. -/
theorem greedy_not_optimal :
    ∃ a : List Match,
      Reachable Examples.greedy ∧
      OneCompanyPerUser Examples.greedy "SEC1" ∧
      totalQtyForSecurity Examples.greedy "SEC1" < UINT_MOD ∧
      Feasible Examples.greedy "SEC1" a ∧
      (a.map Match.qty).sum = 20 ∧
      (getMatchingSizeForSecurity Examples.greedy "SEC1").1 = 10 ∧
      (getMatchingSizeForSecurity Examples.greedy "SEC1").1 < (a.map Match.qty).sum := by
  have hcode : (getMatchingSizeForSecurity Examples.greedy "SEC1").1 = 10 := by
    simp +decide [getMatchingSizeForSecurity, buildBook, greedy_orders, buildStep, StdMap.find,
      StdMap.get, StdMap.insert, matchOrders, buyLoop, sellLoop, eraseAll, StdMap.erase, UINT_MOD]
  refine ⟨[⟨"UserA", "UserD", 10⟩, ⟨"UserB", "UserC", 10⟩], greedy_reachable,
    greedy_oneCompanyPerUser, ?_, greedy_feasible, rfl, hcode, ?_⟩
  · simp +decide [totalQtyForSecurity, greedy_orders, UINT_MOD]
  · rw [hcode]; decide

/-! ## Orders whose side is neither `Buy` nor `Sell` -/

/-- On a sorted map, `insert` puts the new entry somewhere into the map without
the entries under its key. -/
theorem StdMap.insert_split {V : Type} (k : String) (v : V) {m : List (String × V)}
    (hm : StdMap.Sorted m) :
    ∃ l₁ l₂, m.filter (fun e => decide (e.1 ≠ k)) = l₁ ++ l₂ ∧
      StdMap.insert k v m = l₁ ++ (k, v) :: l₂ := by
  induction m with
  | nil => exact ⟨[], [], rfl, rfl⟩
  | cons a t ih =>
    obtain ⟨ka, va⟩ := a
    obtain ⟨hlt, ht⟩ := StdMap.sorted_cons.1 hm
    have htail : ∀ k', k' ≤ ka → t.filter (fun e => decide (e.1 ≠ k')) = t := by
      intro k' hk'
      rw [List.filter_eq_self]
      intro x hx
      simpa using ne_of_gt (lt_of_le_of_lt hk' (hlt x hx))
    by_cases h1 : k < ka
    · refine ⟨[], (ka, va) :: t, ?_, by simp [StdMap.insert, h1]⟩
      rw [List.filter_cons_of_pos (by simpa using ne_of_gt h1), htail k (le_of_lt h1)]
      rfl
    · by_cases h2 : k = ka
      · subst h2
        refine ⟨[], t, ?_, by simp [StdMap.insert]⟩
        rw [List.filter_cons_of_neg (by simp), htail k (le_refl _)]
        rfl
      · obtain ⟨l₁, l₂, e₁, e₂⟩ := ih ht
        refine ⟨(ka, va) :: l₁, l₂, ?_, ?_⟩
        · rw [List.filter_cons_of_pos (by simpa using Ne.symm h2), e₁]; rfl
        · simp [StdMap.insert, h1, h2, e₂]

theorem Spec.qtyByUser_skip (side s : String) (l₁ l₂ : List Order) (o : Order)
    (h : ¬ (o.securityId = s ∧ o.side = side)) :
    Spec.qtyByUser side s (l₁ ++ o :: l₂) = Spec.qtyByUser side s (l₁ ++ l₂) := by
  simp [Spec.qtyByUser, List.foldl_append, h]

/-- An order between the others does not change the company looked up for a
user who has another order for the security, as long as it carries the company
of the user's other orders. -/
theorem Spec.find_companyByUser_skip (s u : String) (l₁ l₂ : List Order) (o : Order)
    (hu : ∃ x ∈ l₁ ++ l₂, x.securityId = s ∧ x.user = u)
    (h : o.securityId = s → ∀ x ∈ l₁ ++ l₂, x.securityId = s → x.user = o.user →
      x.company = o.company) :
    StdMap.find u (Spec.companyByUser s (l₁ ++ o :: l₂)) =
      StdMap.find u (Spec.companyByUser s (l₁ ++ l₂)) := by
  rw [Spec.find_companyByUser, Spec.find_companyByUser]
  simp only [List.reverse_append, List.reverse_cons, List.append_assoc, List.singleton_append,
    List.find?_append, List.find?_cons]
  cases h2 : l₂.reverse.find? (fun x => decide (x.securityId = s ∧ x.user = u)) with
  | some x => simp
  | none =>
    simp only [Option.none_or]
    by_cases hp : o.securityId = s ∧ o.user = u
    · simp only [hp, and_self, decide_True, Option.map_some']
      obtain ⟨x, hx, hxs, hxu⟩ := hu
      have hx1 : x ∈ l₁ := by
        rcases List.mem_append.1 hx with hx | hx
        · exact hx
        · have := List.find?_eq_none.1 h2 x (List.mem_reverse.2 hx)
          simp [hxs, hxu] at this
      cases h1 : l₁.reverse.find? (fun x => decide (x.securityId = s ∧ x.user = u)) with
      | none =>
        have := List.find?_eq_none.1 h1 x (List.mem_reverse.2 hx1)
        simp [hxs, hxu] at this
      | some y =>
        have hy := List.find?_some h1
        simp only [decide_eq_true_eq] at hy
        have hy1 : y ∈ l₁ := List.mem_reverse.1 (List.mem_of_find?_eq_some h1)
        simp only [Option.map_some', Option.some.injEq]
        exact (h hp.1 y (List.mem_append_left _ hy1) hy.1 (by rw [hy.2, hp.2])).symm
    · simp [hp]

theorem Spec.sellPass_congr (f g : String → String) (bu : String) (S : QtyMap) (b t : Nat)
    (hbu : f bu = g bu) (hS : ∀ e ∈ S, f e.1 = g e.1) :
    Spec.sellPass f bu S b t = Spec.sellPass g bu S b t := by
  induction S generalizing b t with
  | nil => rfl
  | cons a rest ih =>
    obtain ⟨su, sq⟩ := a
    have hsu : f su = g su := hS (su, sq) (List.mem_cons_self _ _)
    have hrest : ∀ e ∈ rest, f e.1 = g e.1 := fun e he => hS e (List.mem_cons_of_mem _ he)
    by_cases hb : b = 0
    · subst hb; rw [Spec.sellPass_zero, Spec.sellPass_zero]
    · by_cases hk : sq = 0 ∨ f bu = f su
      · have hk' : sq = 0 ∨ g bu = g su := by rw [← hbu, ← hsu]; exact hk
        rw [Spec.sellPass_cons_keep f bu su sq rest b t hb hk,
          Spec.sellPass_cons_keep g bu su sq rest b t hb hk', ih b t hrest]
      · rw [not_or] at hk
        have hk' : g bu ≠ g su := by rw [← hbu, ← hsu]; exact hk.2
        rw [Spec.sellPass_cons_diff f bu su sq rest b t hb hk.1 hk.2,
          Spec.sellPass_cons_diff g bu su sq rest b t hb hk.1 hk',
          ih (b - min b sq) (t + min b sq) hrest]

/-- The pairing pass only reads the companies of the users in its two maps. -/
theorem Spec.buyPass_congr (f g : String → String) (B S : QtyMap) (t : Nat)
    (hB : ∀ x ∈ B, f x.1 = g x.1) (hS : ∀ k ∈ S.map Prod.fst, f k = g k) :
    Spec.buyPass f B S t = Spec.buyPass g B S t := by
  induction B generalizing S t with
  | nil => rfl
  | cons a rest ih =>
    obtain ⟨bu, b⟩ := a
    rw [Spec.buyPass_cons, Spec.buyPass_cons]
    have hS' : ∀ e ∈ S, f e.1 = g e.1 := fun e he => hS e.1 (List.mem_map.2 ⟨e, he, rfl⟩)
    rw [Spec.sellPass_congr f g bu S b t (hB (bu, b) (List.mem_cons_self _ _)) hS']
    apply ih _ _ (fun x hx => hB x (List.mem_cons_of_mem _ hx))
    intro k hk
    obtain ⟨e, he, rfl⟩ := List.mem_map.1 hk
    exact hS _ (Spec.sellPass_keys g bu S b t e he)

theorem sameCompanyPair_orders : Examples.sameCompanyPair.orders =
    [("OrdId1", ⟨"OrdId1", "SEC1", "Buy", 10, "UserA", "CompanyX"⟩),
     ("OrdId2", ⟨"OrdId2", "SEC1", "Sell", 10, "UserB", "CompanyX"⟩)] := by
  simp +decide [Examples.sameCompanyPair, addOrder, OrderCache.empty, StdMap.insert]

theorem sameCompanyPair_reachable : Reachable Examples.sameCompanyPair :=
  Reachable.addOrder _ _ (Reachable.addOrder _ _ Reachable.empty)

/-- C13, as stated, fails: UserA (`Buy`, CompanyX) and UserB (`Sell`, CompanyX)
match nothing, and after adding a `Hold` order of UserA that carries CompanyY
they match 10, although no entry was stored under the new order's key. -/
theorem unknown_side_changes_matching :
    Examples.holdOrder.side ≠ "Buy" ∧ Examples.holdOrder.side ≠ "Sell" ∧
    Reachable Examples.sameCompanyPair ∧
    Examples.sameCompanyPair.orders.filter
      (fun e => decide (e.1 ≠ Examples.holdOrder.orderId)) = Examples.sameCompanyPair.orders ∧
    (getMatchingSizeForSecurity Examples.sameCompanyPair "SEC1").1 = 0 ∧
    (getMatchingSizeForSecurity (addOrder Examples.sameCompanyPair Examples.holdOrder)
      "SEC1").1 = 10 ∧
    (getMatchingSizeForSecurity (addOrder Examples.sameCompanyPair Examples.holdOrder)
      "SEC1").1 ≠
      (getMatchingSizeForSecurity ⟨Examples.sameCompanyPair.orders.filter
        (fun e => decide (e.1 ≠ Examples.holdOrder.orderId))⟩ "SEC1").1 := by
  have hf : Examples.sameCompanyPair.orders.filter
      (fun e => decide (e.1 ≠ Examples.holdOrder.orderId)) =
      Examples.sameCompanyPair.orders := by
    rw [sameCompanyPair_orders]; decide
  have h0 : (getMatchingSizeForSecurity Examples.sameCompanyPair "SEC1").1 = 0 := by
    simp +decide [getMatchingSizeForSecurity, buildBook, sameCompanyPair_orders, buildStep,
      StdMap.find, StdMap.get, StdMap.insert, matchOrders, buyLoop, sellLoop, eraseAll,
      StdMap.erase, UINT_MOD]
  have h10 : (getMatchingSizeForSecurity (addOrder Examples.sameCompanyPair Examples.holdOrder)
      "SEC1").1 = 10 := by
    simp +decide [getMatchingSizeForSecurity, buildBook, addOrder, Examples.holdOrder,
      sameCompanyPair_orders, buildStep, StdMap.find, StdMap.get, StdMap.insert, matchOrders,
      buyLoop, sellLoop, eraseAll, StdMap.erase, UINT_MOD]
  refine ⟨by decide, by decide, sameCompanyPair_reachable, hf, h0, h10, ?_⟩
  rw [hf, h10]
  show (10 : Nat) ≠ (getMatchingSizeForSecurity Examples.sameCompanyPair "SEC1").1
  rw [h0]; decide

/-- C13, amended: on a reachable cache, adding an order whose side is neither
`Buy` nor `Sell` gives the matching size of the cache without the entry under
the order's key, provided that, when the order is for the security, the other
stored orders of its user for the security carry its company. -/
theorem unknown_side_never_matches (c : OrderCache) (hc : Reachable c) (s : String) (o : Order)
    (hb : o.side ≠ "Buy") (hs : o.side ≠ "Sell")
    (hco : ∀ x ∈ getAllOrders c, x.orderId ≠ o.orderId → x.securityId = s →
      o.securityId = s → x.user = o.user → x.company = o.company) :
    (getMatchingSizeForSecurity (addOrder c o) s).1 =
      (getMatchingSizeForSecurity
        ⟨c.orders.filter (fun e => decide (e.1 ≠ o.orderId))⟩ s).1 := by
  have hv := reachable_valid hc
  obtain ⟨l₁, l₂, e₁, e₂⟩ := StdMap.insert_split o.orderId o hv.1
  show (matchOrders (buildBook (addOrder c o) s)).totalQty =
    (matchOrders (buildBook ⟨c.orders.filter (fun e => decide (e.1 ≠ o.orderId))⟩ s)).totalQty
  rw [matchOrders_totalQty, matchOrders_totalQty, buildBook_orderBook, buildBook_orderBook,
    buildBook_orderBook, buildBook_orderBook, buildBook_userCompanyMap, buildBook_userCompanyMap]
  have hLa : (addOrder c o).orders.map Prod.snd = l₁.map Prod.snd ++ o :: l₂.map Prod.snd := by
    simp [addOrder, e₂]
  have hL : (c.orders.filter (fun e => decide (e.1 ≠ o.orderId))).map Prod.snd =
      l₁.map Prod.snd ++ l₂.map Prod.snd := by
    rw [e₁, List.map_append]
  simp only [hLa, hL]
  rw [Spec.qtyByUser_skip "Buy" s _ _ o (fun h => hb h.2),
    Spec.qtyByUser_skip "Sell" s _ _ o (fun h => hs h.2)]
  have hother : o.securityId = s → ∀ x ∈ l₁.map Prod.snd ++ l₂.map Prod.snd,
      x.securityId = s → x.user = o.user → x.company = o.company := by
    intro hos x hx hxs hxu
    rw [← List.map_append, ← e₁] at hx
    obtain ⟨e, he, rfl⟩ := List.mem_map.1 hx
    obtain ⟨hmem, hne⟩ := List.mem_filter.1 he
    have hid : e.2.orderId ≠ o.orderId := by
      rw [← hv.2 e hmem]; simpa using hne
    exact hco e.2 (by rw [getAllOrders_eq]; exact List.mem_map.2 ⟨e, hmem, rfl⟩) hid hxs hos hxu
  have hkey : ∀ side, ∀ x ∈ (Spec.qtyByUser side s (l₁.map Prod.snd ++ l₂.map Prod.snd)).map
      (fun e => (e.1, e.2 % UINT_MOD)),
      StdMap.get "" x.1 (Spec.companyByUser s (l₁.map Prod.snd ++ o :: l₂.map Prod.snd)) =
        StdMap.get "" x.1 (Spec.companyByUser s (l₁.map Prod.snd ++ l₂.map Prod.snd)) := by
    intro side x hx
    obtain ⟨y, hy, rfl⟩ := List.mem_map.1 hx
    obtain ⟨z, hz, hzs, _, hzu⟩ := Spec.mem_qtyByUser hy
    unfold StdMap.get
    rw [Spec.find_companyByUser_skip s y.1 _ _ o ⟨z, hz, hzs, hzu⟩ hother]
  rw [Spec.buyPass_congr
    (fun u => StdMap.get "" u (Spec.companyByUser s (l₁.map Prod.snd ++ o :: l₂.map Prod.snd)))
    (fun u => StdMap.get "" u (Spec.companyByUser s (l₁.map Prod.snd ++ l₂.map Prod.snd)))
    _ _ _ (hkey "Buy") (fun k hk => by
      obtain ⟨e, he, rfl⟩ := List.mem_map.1 hk
      exact hkey "Sell" e he)]

theorem unknown_side_never_matches_witness :
    Reachable Examples.scenario ∧
    (getMatchingSizeForSecurity (addOrder Examples.scenario
      ⟨"OrdId5", "SEC1", "Hold", 700, "UserA", "CompanyX"⟩) "SEC1").1 =
      (getMatchingSizeForSecurity
        ⟨Examples.scenario.orders.filter (fun e => decide (e.1 ≠ "OrdId5"))⟩ "SEC1").1 := by
  refine ⟨scenario_reachable,
    unknown_side_never_matches Examples.scenario scenario_reachable "SEC1"
      ⟨"OrdId5", "SEC1", "Hold", 700, "UserA", "CompanyX"⟩ (by decide) (by decide) ?_⟩
  intro x hx
  rw [scenario_getAllOrders] at hx
  simp only [Examples.scenarioOrders, List.mem_cons, List.mem_singleton, List.not_mem_nil,
    or_false] at hx
  rcases hx with rfl | rfl | rfl | rfl <;> decide

/-! ## The closed forms at concrete caches -/

theorem mixedCompany_getAllOrders : getAllOrders Examples.mixedCompany =
    [⟨"OrdId1", "SEC1", "Buy", 10, "UserA", "CompanyX"⟩,
     ⟨"OrdId2", "SEC1", "Buy", 10, "UserA", "CompanyY"⟩,
     ⟨"OrdId3", "SEC1", "Sell", 5, "UserB", "CompanyX"⟩] := by
  rw [getAllOrders_eq, mixedCompany_orders]; rfl

theorem mixedCompany_reachable : Reachable Examples.mixedCompany :=
  Reachable.addOrder _ _ (Reachable.addOrder _ _ (Reachable.addOrder _ _ Reachable.empty))

theorem last_seen_company_wins_witness :
    Reachable Examples.mixedCompany ∧
    StdMap.get "" "UserA" (buildBook Examples.mixedCompany "SEC1").userCompanyMap =
      "CompanyY" := by
  refine ⟨mixedCompany_reachable,
    last_seen_company_wins Examples.mixedCompany mixedCompany_reachable "SEC1" "UserA"
      ⟨"OrdId2", "SEC1", "Buy", 10, "UserA", "CompanyY"⟩ ?_ rfl rfl ?_⟩
  · rw [mixedCompany_getAllOrders]; simp
  · intro x hx
    rw [mixedCompany_getAllOrders] at hx
    simp only [List.mem_cons, List.mem_singleton, List.not_mem_nil, or_false] at hx
    rcases hx with rfl | rfl | rfl <;> simp +decide

theorem disjointCompanies_orders : Examples.disjointCompanies.orders =
    [("OrdId1", ⟨"OrdId1", "SEC1", "Buy", 500, "UserA", "CompanyX"⟩),
     ("OrdId2", ⟨"OrdId2", "SEC1", "Buy", 300, "UserB", "CompanyY"⟩),
     ("OrdId3", ⟨"OrdId3", "SEC1", "Sell", 600, "UserC", "CompanyZ"⟩)] := by
  simp +decide [Examples.disjointCompanies, addOrder, OrderCache.empty, StdMap.insert]

theorem disjointCompanies_getAllOrders : getAllOrders Examples.disjointCompanies =
    [⟨"OrdId1", "SEC1", "Buy", 500, "UserA", "CompanyX"⟩,
     ⟨"OrdId2", "SEC1", "Buy", 300, "UserB", "CompanyY"⟩,
     ⟨"OrdId3", "SEC1", "Sell", 600, "UserC", "CompanyZ"⟩] := by
  rw [getAllOrders_eq, disjointCompanies_orders]; rfl

theorem no_exclusion_matches_everything_witness :
    OneCompanyPerUser Examples.disjointCompanies "SEC1" ∧
    totalQtyForSecurity Examples.disjointCompanies "SEC1" < UINT_MOD ∧
    sideQtyForSecurity Examples.disjointCompanies "SEC1" "Buy" = 800 ∧
    sideQtyForSecurity Examples.disjointCompanies "SEC1" "Sell" = 600 ∧
    (getMatchingSizeForSecurity Examples.disjointCompanies "SEC1").1 =
      min (sideQtyForSecurity Examples.disjointCompanies "SEC1" "Buy")
        (sideQtyForSecurity Examples.disjointCompanies "SEC1" "Sell") := by
  have h₁ : OneCompanyPerUser Examples.disjointCompanies "SEC1" := by
    intro o₁ h₁ o₂ h₂ _ _ hu
    rw [disjointCompanies_getAllOrders] at h₁ h₂
    simp only [List.mem_cons, List.mem_singleton, List.not_mem_nil, or_false] at h₁ h₂
    rcases h₁ with rfl | rfl | rfl <;> rcases h₂ with rfl | rfl | rfl <;>
      first | rfl | (exact absurd hu (by decide))
  have h₃ : totalQtyForSecurity Examples.disjointCompanies "SEC1" < UINT_MOD := by
    simp +decide [totalQtyForSecurity, disjointCompanies_orders, UINT_MOD]
  refine ⟨h₁, h₃, ?_, ?_,
    no_exclusion_matches_everything Examples.disjointCompanies "SEC1" h₁ ?_ h₃⟩
  · rw [sideQtyForSecurity, disjointCompanies_getAllOrders]; decide
  · rw [sideQtyForSecurity, disjointCompanies_getAllOrders]; decide
  · intro ob hob os hos
    rw [disjointCompanies_getAllOrders] at hob hos
    simp only [List.mem_cons, List.mem_singleton, List.not_mem_nil, or_false] at hob hos
    rcases hob with rfl | rfl | rfl <;> rcases hos with rfl | rfl | rfl <;> decide

theorem overflow_getAllOrders : getAllOrders Examples.overflow =
    [⟨"OrdId1", "SEC1", "Buy", 2147483648, "UserA", "CompanyX"⟩,
     ⟨"OrdId2", "SEC1", "Buy", 2147483648, "UserA", "CompanyX"⟩,
     ⟨"OrdId3", "SEC1", "Sell", 5, "UserB", "CompanyY"⟩] := by
  rw [getAllOrders_eq, overflow_orders]; rfl

theorem one_buyer_one_seller_wraps_witness :
    sideQtyForSecurity Examples.overflow "SEC1" "Buy" = 4294967296 ∧
    sideQtyForSecurity Examples.overflow "SEC1" "Sell" = 5 ∧
    (getMatchingSizeForSecurity Examples.overflow "SEC1").1 =
      min (sideQtyForSecurity Examples.overflow "SEC1" "Buy" % UINT_MOD)
        (sideQtyForSecurity Examples.overflow "SEC1" "Sell" % UINT_MOD) := by
  refine ⟨?_, ?_, one_buyer_one_seller_wraps Examples.overflow "SEC1" "UserA" "UserB" ?_ ?_ ?_⟩
  · rw [sideQtyForSecurity, overflow_getAllOrders]; decide
  · rw [sideQtyForSecurity, overflow_getAllOrders]; decide
  · intro o ho
    rw [overflow_getAllOrders] at ho
    simp only [List.mem_cons, List.mem_singleton, List.not_mem_nil, or_false] at ho
    rcases ho with rfl | rfl | rfl <;> decide
  · intro o ho
    rw [overflow_getAllOrders] at ho
    simp only [List.mem_cons, List.mem_singleton, List.not_mem_nil, or_false] at ho
    rcases ho with rfl | rfl | rfl <;> decide
  · simp +decide [buildBook, overflow_orders, buildStep, StdMap.find, StdMap.get, StdMap.insert,
      UINT_MOD]

theorem selfTrade_getAllOrders : getAllOrders Examples.selfTrade =
    [⟨"OrdId1", "SEC1", "Buy", 10, "UserA", "CompanyX"⟩,
     ⟨"OrdId2", "SEC1", "Sell", 10, "UserA", "CompanyY"⟩] := by
  rw [getAllOrders_eq]
  simp +decide [Examples.selfTrade, addOrder, OrderCache.empty, StdMap.insert]

theorem single_user_never_matches_witness :
    (∀ o ∈ getAllOrders Examples.selfTrade, o.securityId = "SEC1" → o.user = "UserA") ∧
    (getMatchingSizeForSecurity Examples.selfTrade "SEC1").1 = 0 := by
  have h : ∀ o ∈ getAllOrders Examples.selfTrade, o.securityId = "SEC1" → o.user = "UserA" := by
    intro o ho
    rw [selfTrade_getAllOrders] at ho
    simp only [List.mem_cons, List.mem_singleton, List.not_mem_nil, or_false] at ho
    rcases ho with rfl | rfl <;> decide
  exact ⟨h, single_user_never_matches Examples.selfTrade "SEC1" "UserA" h⟩

/-! ## The store during a call of `getMatchingSizeForSecurity` -/

theorem foldl_keeps_orders {α : Type} (f : CallState → α → CallState)
    (hf : ∀ st a, (f st a).orders = st.orders) (l : List α) (st : CallState) :
    (l.foldl f st).orders = st.orders := by
  induction l generalizing st with
  | nil => rfl
  | cons a t ih => rw [List.foldl_cons, ih, hf]

theorem buildIter_orders (s : String) (st : CallState) (e : String × Order) :
    (buildIter s st e).orders = st.orders := rfl

theorem buildLoop_orders (s : String) (st : CallState) : (buildLoop s st).orders = st.orders :=
  foldl_keeps_orders _ (buildIter_orders s) _ _

theorem sellIter_orders (bu : String) (st : CallState) (su : String) :
    (sellIter bu st su).orders = st.orders := by
  unfold sellIter
  split_ifs <;> rfl

theorem sellOrdersLoop_orders (bu : String) (st : CallState) :
    (sellOrdersLoop bu st).orders = st.orders :=
  foldl_keeps_orders _ (sellIter_orders bu) _ _

theorem eraseSellIter_orders (st : CallState) (k : String) :
    (eraseSellIter st k).orders = st.orders := rfl

theorem markBuyOrder_orders (bu : String) (st : CallState) :
    (markBuyOrder bu st).orders = st.orders := by
  unfold markBuyOrder
  split_ifs <;> rfl

theorem buyIter_orders (st : CallState) (bu : String) : (buyIter st bu).orders = st.orders := by
  unfold buyIter
  rw [markBuyOrder_orders, foldl_keeps_orders _ eraseSellIter_orders, sellOrdersLoop_orders]
  rfl

theorem buyOrdersLoop_orders (st : CallState) : (buyOrdersLoop st).orders = st.orders :=
  foldl_keeps_orders _ buyIter_orders _ _

theorem eraseBuyIter_orders (st : CallState) (k : String) :
    (eraseBuyIter st k).orders = st.orders := rfl

theorem matchIter_orders (st : CallState) : (matchIter st).orders = st.orders := by
  unfold matchIter
  split_ifs
  · simp only
    rw [foldl_keeps_orders _ eraseBuyIter_orders, buyOrdersLoop_orders]
  · rfl

/-- No pass through any loop body of `getMatchingSizeForSecurity`, the two
removal loops included, changes the member `orders`. -/
theorem run_orders (c : OrderCache) (s : String) :
    (runGetMatchingSizeForSecurity c s).orders = c.orders := by
  unfold runGetMatchingSizeForSecurity
  rw [matchIter_orders, buildLoop_orders]
  rfl

/-! ## The statement-by-statement run against the loops as functions -/

theorem StdMap.sorted_mid {V : Type} {pre suf : List (String × V)} {k : String} {v : V} (w : V)
    (h : StdMap.Sorted (pre ++ (k, v) :: suf)) : StdMap.Sorted (pre ++ (k, w) :: suf) := by
  unfold StdMap.Sorted at *
  rw [← List.pairwise_map (f := Prod.fst)] at h ⊢
  simpa using h

theorem StdMap.get_mid {V : Type} (d : V) {pre suf : List (String × V)} {k : String} {v : V}
    (h : StdMap.Sorted (pre ++ (k, v) :: suf)) :
    StdMap.get d k (pre ++ (k, v) :: suf) = v := by
  unfold StdMap.get
  rw [(StdMap.find_eq_some_iff (v := v) h).2 (by simp)]
  rfl

theorem StdMap.insert_mid {V : Type} {pre suf : List (String × V)} {k : String} {v : V} (w : V)
    (h : StdMap.Sorted (pre ++ (k, v) :: suf)) :
    StdMap.insert k w (pre ++ (k, v) :: suf) = pre ++ (k, w) :: suf := by
  induction pre with
  | nil => simp [StdMap.insert]
  | cons a t ih =>
    obtain ⟨ka, va⟩ := a
    have h' : StdMap.Sorted ((ka, va) :: (t ++ (k, v) :: suf)) := h
    obtain ⟨hlt, ht⟩ := StdMap.sorted_cons.1 h'
    have hk : ka < k := hlt (k, v) (by simp)
    have h1 : ¬ k < ka := not_lt.2 (le_of_lt hk)
    have h2 : ¬ k = ka := fun e => absurd hk (by rw [e]; exact lt_irrefl _)
    show StdMap.insert k w ((ka, va) :: (t ++ (k, v) :: suf)) = (ka, va) :: (t ++ (k, w) :: suf)
    simp only [StdMap.insert, h1, h2, if_false]
    rw [ih ht]

theorem get_setQty (side' side user : String) (q : Nat) (ob : List (String × QtyMap)) :
    StdMap.get [] side' (setQty side user q ob) =
      if side' = side then StdMap.insert user q (StdMap.get [] side ob)
      else StdMap.get [] side' ob := by
  unfold setQty
  rw [get_insert]

/-- The loop over `orders`, pass by pass, builds the book of `buildBook` and
leaves the other variables alone. -/
theorem foldl_buildIter (s : String) (l : List (String × Order)) (st : CallState) :
    (l.foldl (buildIter s) st).orderBook =
      (l.foldl (buildStep s) ⟨st.orderBook, st.userCompanyMap⟩).orderBook ∧
    (l.foldl (buildIter s) st).userCompanyMap =
      (l.foldl (buildStep s) ⟨st.orderBook, st.userCompanyMap⟩).userCompanyMap ∧
    (l.foldl (buildIter s) st).totalQty = st.totalQty := by
  induction l generalizing st with
  | nil => exact ⟨rfl, rfl, rfl⟩
  | cons e t ih =>
    simp only [List.foldl_cons]
    exact ih (buildIter s st e)

/-- One pass through the inner loop body, in terms of the two maps. -/
theorem sellIter_spec (bu su : String) (st : CallState) (pre rest preB sufB : QtyMap)
    (sq b : Nat)
    (hS : StdMap.Sorted (pre ++ (su, sq) :: rest))
    (hB : StdMap.Sorted (preB ++ (bu, b) :: sufB))
    (hs : StdMap.get [] "Sell" st.orderBook = pre ++ (su, sq) :: rest)
    (hb : StdMap.get [] "Buy" st.orderBook = preB ++ (bu, b) :: sufB) :
    (StdMap.get "" bu st.userCompanyMap = StdMap.get "" su st.userCompanyMap →
      sellIter bu st su = st) ∧
    (StdMap.get "" bu st.userCompanyMap ≠ StdMap.get "" su st.userCompanyMap →
      StdMap.get [] "Sell" (sellIter bu st su).orderBook =
        pre ++ (su, sq - min b sq) :: rest ∧
      StdMap.get [] "Buy" (sellIter bu st su).orderBook =
        preB ++ (bu, b - min b sq) :: sufB ∧
      (sellIter bu st su).totalQty = (st.totalQty + min b sq) % UINT_MOD ∧
      (sellIter bu st su).sellOrdersToRemove =
        (if sq - min b sq = 0 then st.sellOrdersToRemove ++ [su]
          else st.sellOrdersToRemove) ∧
      (sellIter bu st su).userCompanyMap = st.userCompanyMap ∧
      (sellIter bu st su).buyOrdersToRemove = st.buyOrdersToRemove) := by
  have hgb : StdMap.get 0 bu (StdMap.get [] "Buy" st.orderBook) = b := by
    rw [hb]; exact StdMap.get_mid 0 hB
  have hgs : StdMap.get 0 su (StdMap.get [] "Sell" st.orderBook) = sq := by
    rw [hs]; exact StdMap.get_mid 0 hS
  constructor
  · intro hc
    unfold sellIter
    simp [hc]
  · intro hc
    have hdef : sellIter bu st su =
        { st with
          totalQty := (st.totalQty + min b sq) % UINT_MOD
          orderBook := setQty "Sell" su (sq - min b sq)
            (setQty "Buy" bu (b - min b sq) st.orderBook)
          sellOrdersToRemove :=
            if sq - min b sq = 0 then st.sellOrdersToRemove ++ [su]
            else st.sellOrdersToRemove } := by
      unfold sellIter
      rw [if_pos hc]
      simp only [hgb, hgs]
    rw [hdef]
    refine ⟨?_, ?_, rfl, rfl, rfl, rfl⟩
    · rw [get_setQty, if_pos rfl, get_setQty, if_neg (by decide), hs]
      exact StdMap.insert_mid _ hS
    · rw [get_setQty, if_neg (by decide), get_setQty, if_pos rfl, hb]
      exact StdMap.insert_mid _ hB

/-- The inner loop, pass by pass, does to the two maps, the total and the
removal list what `sellLoop` computes. -/
theorem foldl_sellIter (bu : String) (suf : QtyMap) :
    ∀ (pre : QtyMap) (st : CallState) (preB sufB : QtyMap) (b : Nat),
      StdMap.Sorted (pre ++ suf) → StdMap.Sorted (preB ++ (bu, b) :: sufB) →
      StdMap.get [] "Sell" st.orderBook = pre ++ suf →
      StdMap.get [] "Buy" st.orderBook = preB ++ (bu, b) :: sufB →
      StdMap.get [] "Sell" ((suf.map Prod.fst).foldl (sellIter bu) st).orderBook =
        pre ++ (sellLoop st.userCompanyMap bu suf b st.totalQty).sellOrders ∧
      StdMap.get [] "Buy" ((suf.map Prod.fst).foldl (sellIter bu) st).orderBook =
        preB ++ (bu, (sellLoop st.userCompanyMap bu suf b st.totalQty).buyOrderQty) :: sufB ∧
      ((suf.map Prod.fst).foldl (sellIter bu) st).totalQty =
        (sellLoop st.userCompanyMap bu suf b st.totalQty).totalQty ∧
      ((suf.map Prod.fst).foldl (sellIter bu) st).sellOrdersToRemove =
        st.sellOrdersToRemove ++
          (sellLoop st.userCompanyMap bu suf b st.totalQty).sellOrdersToRemove ∧
      ((suf.map Prod.fst).foldl (sellIter bu) st).userCompanyMap = st.userCompanyMap ∧
      ((suf.map Prod.fst).foldl (sellIter bu) st).buyOrdersToRemove = st.buyOrdersToRemove := by
  induction suf with
  | nil =>
    intro pre st preB sufB b _ _ hs hb
    refine ⟨?_, hb, rfl, ?_, rfl, rfl⟩
    · simpa [sellLoop] using hs
    · simp [sellLoop]
  | cons a rest ih =>
    obtain ⟨su, sq⟩ := a
    intro pre st preB sufB b hS hB hs hb
    obtain ⟨hsame, hdiff⟩ := sellIter_spec bu su st pre rest preB sufB sq b hS hB hs hb
    simp only [List.map_cons, List.foldl_cons]
    by_cases hc : StdMap.get "" bu st.userCompanyMap = StdMap.get "" su st.userCompanyMap
    · rw [hsame hc, sellLoop_skip hc]
      have := ih (pre ++ [(su, sq)]) st preB sufB b (by simpa using hS) hB (by simpa using hs) hb
      simpa using this
    · obtain ⟨h1, h2, h3, h4, h5, h6⟩ := hdiff hc
      have := ih (pre ++ [(su, sq - min b sq)]) (sellIter bu st su) preB sufB (b - min b sq)
        (by simpa using StdMap.sorted_mid (sq - min b sq) hS)
        (StdMap.sorted_mid (b - min b sq) hB) (by simpa using h1) h2
      rw [h5, h3, h4, h6] at this
      rw [sellLoop_match hc]
      obtain ⟨g1, g2, g3, g4, g5, g6⟩ := this
      refine ⟨by simpa using g1, g2, g3, ?_, g5, g6⟩
      rw [g4]
      split_ifs <;> simp

theorem openSellOrders_get (side : String) (st : CallState) :
    StdMap.get [] side (openSellOrders st).orderBook = StdMap.get [] side st.orderBook := by
  show StdMap.get [] side
    (if (StdMap.find "Sell" st.orderBook).isNone then StdMap.insert "Sell" [] st.orderBook
      else st.orderBook) = _
  split_ifs with hn
  · exact get_insert_default [] side "Sell" st.orderBook hn
  · rfl

/-- The loop that erases the marked sell users, pass by pass, is `eraseAll` on
`orderBook["Sell"]` and leaves the rest alone. -/
theorem foldl_eraseSellIter (rm : List String) (st : CallState) :
    StdMap.get [] "Sell" (rm.foldl eraseSellIter st).orderBook =
      eraseAll rm (StdMap.get [] "Sell" st.orderBook) ∧
    StdMap.get [] "Buy" (rm.foldl eraseSellIter st).orderBook =
      StdMap.get [] "Buy" st.orderBook ∧
    (rm.foldl eraseSellIter st).totalQty = st.totalQty ∧
    (rm.foldl eraseSellIter st).userCompanyMap = st.userCompanyMap := by
  induction rm generalizing st with
  | nil => exact ⟨rfl, rfl, rfl, rfl⟩
  | cons k t ih =>
    obtain ⟨h1, h2, h3, h4⟩ := ih (eraseSellIter st k)
    simp only [List.foldl_cons, eraseAll] at h1 ⊢
    refine ⟨?_, ?_, h3, h4⟩
    · rw [h1]
      show eraseAll t (StdMap.get [] "Sell" (StdMap.insert "Sell"
        (StdMap.erase k (StdMap.get [] "Sell" st.orderBook)) st.orderBook)) = _
      rw [get_insert, if_pos rfl]
      rfl
    · rw [h2]
      show StdMap.get [] "Buy" (StdMap.insert "Sell"
        (StdMap.erase k (StdMap.get [] "Sell" st.orderBook)) st.orderBook) = _
      rw [get_insert, if_neg (by decide)]

theorem markBuyOrder_fields (bu : String) (st : CallState) :
    (markBuyOrder bu st).orderBook = st.orderBook ∧
    (markBuyOrder bu st).totalQty = st.totalQty ∧
    (markBuyOrder bu st).userCompanyMap = st.userCompanyMap := by
  unfold markBuyOrder
  split_ifs <;> exact ⟨rfl, rfl, rfl⟩

/-- One pass through the outer loop body does to the two maps and the total
what one step of `buyLoop` computes. -/
theorem buyIter_spec (st : CallState) (bu : String) (preB restB : QtyMap) (b : Nat)
    (hB : StdMap.Sorted (preB ++ (bu, b) :: restB))
    (hS : StdMap.Sorted (StdMap.get [] "Sell" st.orderBook))
    (hb : StdMap.get [] "Buy" st.orderBook = preB ++ (bu, b) :: restB) :
    StdMap.get [] "Sell" (buyIter st bu).orderBook =
      eraseAll
        (sellLoop st.userCompanyMap bu (StdMap.get [] "Sell" st.orderBook) b
          st.totalQty).sellOrdersToRemove
        (sellLoop st.userCompanyMap bu (StdMap.get [] "Sell" st.orderBook) b
          st.totalQty).sellOrders ∧
    StdMap.get [] "Buy" (buyIter st bu).orderBook =
      preB ++ (bu, (sellLoop st.userCompanyMap bu (StdMap.get [] "Sell" st.orderBook) b
        st.totalQty).buyOrderQty) :: restB ∧
    (buyIter st bu).totalQty =
      (sellLoop st.userCompanyMap bu (StdMap.get [] "Sell" st.orderBook) b
        st.totalQty).totalQty ∧
    (buyIter st bu).userCompanyMap = st.userCompanyMap := by
  have hs₁ := openSellOrders_get "Sell" st
  have hb₁ := openSellOrders_get "Buy" st
  have hf := foldl_sellIter bu (StdMap.get [] "Sell" (openSellOrders st).orderBook) []
    (openSellOrders st) preB restB b (by rw [hs₁]; simpa using hS) hB (by simp)
    (by rw [hb₁, hb])
  have hu : (openSellOrders st).userCompanyMap = st.userCompanyMap := rfl
  have ht : (openSellOrders st).totalQty = st.totalQty := rfl
  have hr : (openSellOrders st).sellOrdersToRemove = [] := rfl
  rw [hu, ht, hr, hs₁] at hf
  obtain ⟨f1, f2, f3, f4, f5, _⟩ := hf
  have f1' : StdMap.get [] "Sell" (sellOrdersLoop bu (openSellOrders st)).orderBook =
      (sellLoop st.userCompanyMap bu (StdMap.get [] "Sell" st.orderBook) b
        st.totalQty).sellOrders := by
    unfold sellOrdersLoop; rw [hs₁]; simpa using f1
  have f2' : StdMap.get [] "Buy" (sellOrdersLoop bu (openSellOrders st)).orderBook =
      preB ++ (bu, (sellLoop st.userCompanyMap bu (StdMap.get [] "Sell" st.orderBook) b
        st.totalQty).buyOrderQty) :: restB := by
    unfold sellOrdersLoop; rw [hs₁]; exact f2
  have f3' : (sellOrdersLoop bu (openSellOrders st)).totalQty =
      (sellLoop st.userCompanyMap bu (StdMap.get [] "Sell" st.orderBook) b
        st.totalQty).totalQty := by
    unfold sellOrdersLoop; rw [hs₁]; exact f3
  have f4' : (sellOrdersLoop bu (openSellOrders st)).sellOrdersToRemove =
      (sellLoop st.userCompanyMap bu (StdMap.get [] "Sell" st.orderBook) b
        st.totalQty).sellOrdersToRemove := by
    unfold sellOrdersLoop; rw [hs₁]; simpa using f4
  have f5' : (sellOrdersLoop bu (openSellOrders st)).userCompanyMap = st.userCompanyMap := by
    unfold sellOrdersLoop; rw [hs₁]; exact f5
  obtain ⟨e1, e2, e3, e4⟩ := foldl_eraseSellIter
    (sellOrdersLoop bu (openSellOrders st)).sellOrdersToRemove
    (sellOrdersLoop bu (openSellOrders st))
  obtain ⟨m1, m2, m3⟩ := markBuyOrder_fields bu
    ((sellOrdersLoop bu (openSellOrders st)).sellOrdersToRemove.foldl eraseSellIter
      (sellOrdersLoop bu (openSellOrders st)))
  unfold buyIter
  simp only
  rw [m1, m2, m3, e1, e2, e3, e4, f1', f2', f3', f4', f5']
  exact ⟨rfl, rfl, rfl, rfl⟩

theorem eraseAll_sorted_after_sellLoop (ucm : List (String × String)) (bu : String)
    {S : QtyMap} (b t : Nat) (hS : StdMap.Sorted S) :
    StdMap.Sorted (eraseAll (sellLoop ucm bu S b t).sellOrdersToRemove
      (sellLoop ucm bu S b t).sellOrders) :=
  (nonzero_after_sellLoop ucm bu b t hS).2

/-- The outer loop, pass by pass, arrives at the total of `buyLoop`. -/
theorem foldl_buyIter (sufB : QtyMap) :
    ∀ (preB : QtyMap) (st : CallState),
      StdMap.Sorted (preB ++ sufB) → StdMap.Sorted (StdMap.get [] "Sell" st.orderBook) →
      StdMap.get [] "Buy" st.orderBook = preB ++ sufB →
      ((sufB.map Prod.fst).foldl buyIter st).totalQty =
        (buyLoop st.userCompanyMap sufB (StdMap.get [] "Sell" st.orderBook)
          st.totalQty).totalQty := by
  induction sufB with
  | nil => intro preB st _ _ _; rfl
  | cons a rest ih =>
    obtain ⟨bu, b⟩ := a
    intro preB st hB hS hb
    obtain ⟨h1, h2, h3, h4⟩ := buyIter_spec st bu preB rest b hB hS hb
    have := ih (preB ++ [(bu, (sellLoop st.userCompanyMap bu
        (StdMap.get [] "Sell" st.orderBook) b st.totalQty).buyOrderQty)]) (buyIter st bu)
      (by simpa using StdMap.sorted_mid _ hB)
      (by rw [h1]; exact eraseAll_sorted_after_sellLoop _ _ _ _ hS)
      (by simpa using h2)
    simp only [List.map_cons, List.foldl_cons]
    rw [this, h1, h3, h4, buyLoop_cons]

theorem foldl_eraseBuyIter_totalQty (rm : List String) (st : CallState) :
    (rm.foldl eraseBuyIter st).totalQty = st.totalQty := by
  induction rm generalizing st with
  | nil => rfl
  | cons k t ih => rw [List.foldl_cons, ih]; rfl

/-- The matching statement, pass by pass, arrives at the total of
`matchOrders`. -/
theorem matchIter_totalQty (st : CallState) (h0 : st.totalQty = 0)
    (hB : StdMap.Sorted (StdMap.get [] "Buy" st.orderBook))
    (hS : StdMap.Sorted (StdMap.get [] "Sell" st.orderBook)) :
    (matchIter st).totalQty = (matchOrders ⟨st.orderBook, st.userCompanyMap⟩).totalQty := by
  unfold matchIter matchOrders
  split_ifs with h
  · simp only
    rw [foldl_eraseBuyIter_totalQty]
    unfold buyOrdersLoop
    have := foldl_buyIter (StdMap.get [] "Buy" st.orderBook) []
      { st with buyOrdersToRemove := [] } (by simpa using hB) hS (by simp)
    rw [this, h0]
  · exact h0

/-- The total in the final state of the statement-by-statement run is the
total of the loops taken as functions. -/
theorem run_totalQty (c : OrderCache) (s : String) :
    (runGetMatchingSizeForSecurity c s).totalQty = (matchOrders (buildBook c s)).totalQty := by
  obtain ⟨h1, h2, h3⟩ := foldl_buildIter s c.orders (CallState.enter c)
  have hob : (buildLoop s (CallState.enter c)).orderBook = (buildBook c s).orderBook := h1
  have hucm : (buildLoop s (CallState.enter c)).userCompanyMap =
      (buildBook c s).userCompanyMap := h2
  have ht : (buildLoop s (CallState.enter c)).totalQty = 0 := h3
  have hsorted : ∀ side, StdMap.Sorted (StdMap.get [] side (buildBook c s).orderBook) := by
    intro side
    rw [buildBook_orderBook]
    exact StdMap.sorted_map (fun x => x % UINT_MOD) (Spec.qtyByUser_sorted _ _ _)
  unfold runGetMatchingSizeForSecurity
  rw [matchIter_totalQty _ ht (by rw [hob]; exact hsorted "Buy") (by rw [hob]; exact hsorted "Sell"),
    hob, hucm]

/-- C5: `getMatchingSizeForSecurity` is read-only and repeatable. Run statement
by statement on a state that holds the member `orders` next to the working
maps, the call leaves `orders`, hence `getAllOrders`, as it found them; it is
the call the other statements are about (same returned value, same mapping
left); and a second call on the mapping it leaves returns the same value. -/
theorem getMatchingSizeForSecurity_read_only (c : OrderCache) (s : String) :
    (runGetMatchingSizeForSecurity c s).orders = c.orders ∧
    getAllOrders ⟨(runGetMatchingSizeForSecurity c s).orders⟩ = getAllOrders c ∧
    getMatchingSizeForSecurity c s =
      ((runGetMatchingSizeForSecurity c s).totalQty,
        ⟨(runGetMatchingSizeForSecurity c s).orders⟩) ∧
    (runGetMatchingSizeForSecurity ⟨(runGetMatchingSizeForSecurity c s).orders⟩ s).totalQty =
      (runGetMatchingSizeForSecurity c s).totalQty := by
  have hframe := run_orders c s
  refine ⟨hframe, by rw [hframe], ?_, by rw [hframe]⟩
  rw [hframe, run_totalQty]
  rfl

end MatchEngine
